import Mathlib

/-!
# Northwest Corner allocation (`R/NWC.c`)

A shallow embedding of the allocation loop of `main` in `R/NWC.c` and the
properties of that loop.

Modelling conventions.

* The C arrays `c[20][20]`, `al[20][20]`, `dem[20]`, `sup[20]` are total maps
  from indices to integers.  The loop reads and writes only cells with row
  index below `m` and column index below `n`, so the maps agree with the
  arrays whenever `m` and `n` are at most `20`, the capacity of the arrays.
  The theorems are stated for all `m` and `n`.
* The array `al` is cleared on the `m × n` block only; its other cells keep an
  arbitrary prior content `al0`.
* `step32`, `loop32` and `nwc32` are the loop with the arithmetic of a 32-bit
  `int`: the result of every multiplication, addition and subtraction is
  reduced modulo `2^32` (`wrap32`).  `step`, `loop` and `nwc` are the same loop
  over the mathematical integers (`Int`).  On non-negative `int` inputs the two
  agree on everything except the accumulator `sum` (`nwc32_agree`), and on
  `sum` as well below the bound of `loop32_eq`.
* The `for` loop is `loop`, recursive on a fuel argument; `loop_fuel_enough`
  shows that fuel `(m - i) + (n - j)` always reaches the exit of the loop and
  that additional fuel changes nothing.  `nwc` runs the loop with fuel `m + n`.
-/

namespace NWC

/-- The variables of `main` that the allocation loop reads or writes. -/
structure State where
  c : Nat → Nat → Int
  sup : Nat → Int
  dem : Nat → Int
  al : Nat → Nat → Int
  sum : Int
  i : Nat
  j : Nat

/-- Assignment `v[k] = x` on a one-dimensional array. -/
def setVec (v : Nat → Int) (k : Nat) (x : Int) : Nat → Int :=
  fun a => if a = k then x else v a

/-- Assignment `a[i][j] = x` on a two-dimensional array. -/
def setCell (a : Nat → Nat → Int) (i j : Nat) (x : Int) : Nat → Nat → Int :=
  fun r k => if r = i ∧ k = j then x else a r k

/-- The nested loops `al[i][j] = 0` for `i < m`, `j < n`; the other cells keep
whatever the uninitialised array `al0` held. -/
def initAl (m n : Nat) (al0 : Nat → Nat → Int) : Nat → Nat → Int :=
  fun r k => if r < m ∧ k < n then 0 else al0 r k

/-- The state on entry to the allocation loop: the arrays as read from the
input, `al` cleared on the `m × n` block, `sum = 0`, `i = 0`, `j = 0`. -/
def init (m n : Nat) (c : Nat → Nat → Int) (sup dem : Nat → Int)
    (al0 : Nat → Nat → Int) : State :=
  { c := c, sup := sup, dem := dem, al := initAl m n al0, sum := 0, i := 0, j := 0 }

/-- The loop condition `i < m && j < n`. -/
def loopCond (m n : Nat) (s : State) : Bool :=
  decide (s.i < m) && decide (s.j < n)

/-- One execution of the loop body (the three branches of the `if`). -/
def step (s : State) : State :=
  if s.sup s.i < s.dem s.j then
    { s with
      sum := s.sum + s.c s.i s.j * s.sup s.i
      al := setCell s.al s.i s.j (s.sup s.i)
      dem := setVec s.dem s.j (s.dem s.j - s.sup s.i)
      sup := setVec s.sup s.i 0
      i := s.i + 1 }
  else if s.sup s.i > s.dem s.j then
    { s with
      sum := s.sum + s.c s.i s.j * s.dem s.j
      al := setCell s.al s.i s.j (s.dem s.j)
      sup := setVec s.sup s.i (s.sup s.i - s.dem s.j)
      dem := setVec s.dem s.j 0
      j := s.j + 1 }
  else
    { s with
      sum := s.sum + s.c s.i s.j * s.dem s.j
      al := setCell s.al s.i s.j (s.dem s.j)
      sup := setVec s.sup s.i 0
      dem := setVec s.dem s.j 0
      j := s.j + 1
      i := s.i + 1 }

/-- The `for (i = 0, j = 0; i < m && j < n; )` loop, started in state `s`, run
for at most `fuel` iterations. -/
def loop (m n : Nat) : Nat → State → State
  | 0, s => s
  | fuel + 1, s => if loopCond m n s then loop m n fuel (step s) else s

/-- The cells `(i, j)` at which the loop body is executed, in order. -/
def visited (m n : Nat) : Nat → State → List (Nat × Nat)
  | 0, _ => []
  | fuel + 1, s => if loopCond m n s then (s.i, s.j) :: visited m n fuel (step s) else []

/-- The allocation loop of `main` run to completion from the initial state. -/
def nwc (m n : Nat) (c : Nat → Nat → Int) (sup dem : Nat → Int)
    (al0 : Nat → Nat → Int) : State :=
  loop m n (m + n) (init m n c sup dem al0)

/-- Sum of row `i` of an `m × n` matrix. -/
def rowSum (n : Nat) (a : Nat → Nat → Int) (i : Nat) : Int :=
  ∑ j in Finset.range n, a i j

/-- Sum of column `j` of an `m × n` matrix. -/
def colSum (m : Nat) (a : Nat → Nat → Int) (j : Nat) : Int :=
  ∑ i in Finset.range m, a i j

/-- Sum of the first `k` entries of a vector. -/
def total (k : Nat) (v : Nat → Int) : Int :=
  ∑ x in Finset.range k, v x

/-- Cost of an allocation recomputed from the matrices:
the sum over all cells of `a[i][j] * c[i][j]`. -/
def costOf (m n : Nat) (a c : Nat → Nat → Int) : Int :=
  ∑ i in Finset.range m, ∑ j in Finset.range n, a i j * c i j

/-- A vector given by the list of its leading entries. -/
def vec (l : List Int) : Nat → Int :=
  fun k => l.getD k 0

/-- A matrix given by the list of its rows. -/
def mat (l : List (List Int)) : Nat → Nat → Int :=
  fun r k => (l.getD r []).getD k 0

/-- The loop invariant, relative to the dimensions and the arrays as they were
on entry to the loop (`c0`, `S`, `D`). -/
structure Inv (m n : Nat) (c0 : Nat → Nat → Int) (S D : Nat → Int) (s : State) : Prop where
  c_eq : s.c = c0
  i_le : s.i ≤ m
  j_le : s.j ≤ n
  zero : ∀ r k, r < m → k < n → (s.i < r ∨ s.j < k ∨ (r = s.i ∧ k = s.j)) → s.al r k = 0
  supRes : ∀ r, r < m → s.sup r = S r - rowSum n s.al r
  demRes : ∀ k, k < n → s.dem k = D k - colSum m s.al k
  supKeep : ∀ r, s.i < r → s.sup r = S r
  demKeep : ∀ k, s.j < k → s.dem k = D k
  supDone : ∀ r, r < s.i → s.sup r = 0
  demDone : ∀ k, k < s.j → s.dem k = 0
  cost : s.sum = costOf m n s.al c0

/-- All residual supplies and demands of the `m × n` problem are non-negative. -/
def NonNeg (m n : Nat) (s : State) : Prop :=
  (∀ r, r < m → 0 ≤ s.sup r) ∧ (∀ k, k < n → 0 ≤ s.dem k)

/-- An arbitrary content of the array `al` before it is cleared. -/
def stale : Nat → Nat → Int :=
  fun r k => 1000 + r + k

/-- The state reached after `k` executions of the tie branch on a problem whose
supplies and demands agree entry by entry. -/
def DiagInv (n : Nat) (c0 : Nat → Nat → Int) (S D : Nat → Int) (k : Nat) (s : State) : Prop :=
  s.c = c0 ∧ s.i = k ∧ s.j = k ∧
  (∀ x, k ≤ x → s.sup x = S x) ∧ (∀ x, k ≤ x → s.dem x = D x) ∧
  (∀ a b, a < n → b < n → s.al a b = if a = b ∧ a < k then S a else 0) ∧
  s.sum = ∑ x in Finset.range k, S x * c0 x x

/-- Number of units shipped by an allocation: the sum of all cells of the
`m × n` block. -/
def shipped (m n : Nat) (a : Nat → Nat → Int) : Int :=
  ∑ i in Finset.range m, ∑ j in Finset.range n, a i j

/-- Every cell of the `m × n` block of `al` is non-negative. -/
def AlNonNeg (m n : Nat) (s : State) : Prop :=
  ∀ r k, r < m → k < n → 0 ≤ s.al r k

/-- The cell `q` is the southern, eastern or south-eastern neighbour of `p`. -/
def stairStep (p q : Nat × Nat) : Bool :=
  decide (q = (p.1 + 1, p.2)) || decide (q = (p.1, p.2 + 1)) || decide (q = (p.1 + 1, p.2 + 1))

/-- Each cell of the list is followed by one of its three neighbours `stairStep`. -/
def isStaircase : List (Nat × Nat) → Bool
  | [] => true
  | [_] => true
  | p :: q :: rest => stairStep p q && isStaircase (q :: rest)

/-- The cells of the `m × n` block that hold a non-zero value. -/
def nonzeroCells (m n : Nat) (a : Nat → Nat → Int) : Finset (Nat × Nat) :=
  (Finset.range m ×ˢ Finset.range n).filter (fun p => a p.1 p.2 ≠ 0)

/-- The value of a 32-bit two's-complement `int` that is congruent to `x`
modulo `2^32`, in the range `-2^31 .. 2^31 - 1`. -/
def wrap32 (x : Int) : Int :=
  (x + 2147483648) % 4294967296 - 2147483648

/-- The loop body with 32-bit arithmetic: the result of every multiplication,
addition and subtraction is reduced modulo `2^32` by `wrap32`. -/
def step32 (s : State) : State :=
  if s.sup s.i < s.dem s.j then
    { s with
      sum := wrap32 (s.sum + wrap32 (s.c s.i s.j * s.sup s.i))
      al := setCell s.al s.i s.j (s.sup s.i)
      dem := setVec s.dem s.j (wrap32 (s.dem s.j - s.sup s.i))
      sup := setVec s.sup s.i 0
      i := s.i + 1 }
  else if s.sup s.i > s.dem s.j then
    { s with
      sum := wrap32 (s.sum + wrap32 (s.c s.i s.j * s.dem s.j))
      al := setCell s.al s.i s.j (s.dem s.j)
      sup := setVec s.sup s.i (wrap32 (s.sup s.i - s.dem s.j))
      dem := setVec s.dem s.j 0
      j := s.j + 1 }
  else
    { s with
      sum := wrap32 (s.sum + wrap32 (s.c s.i s.j * s.dem s.j))
      al := setCell s.al s.i s.j (s.dem s.j)
      sup := setVec s.sup s.i 0
      dem := setVec s.dem s.j 0
      j := s.j + 1
      i := s.i + 1 }

/-- The allocation loop with the 32-bit loop body, run for at most `fuel`
iterations. -/
def loop32 (m n : Nat) : Nat → State → State
  | 0, s => s
  | fuel + 1, s => if loopCond m n s then loop32 m n fuel (step32 s) else s

/-- The allocation loop with 32-bit arithmetic run to completion from the
initial state. -/
def nwc32 (m n : Nat) (c : Nat → Nat → Int) (sup dem : Nat → Int)
    (al0 : Nat → Nat → Int) : State :=
  loop32 m n (m + n) (init m n c sup dem al0)

/-- All residual supplies and demands of the `m × n` problem are below `2^31`. -/
def InRange (m n : Nat) (s : State) : Prop :=
  (∀ r, r < m → s.sup r < 2147483648) ∧ (∀ k, k < n → s.dem k < 2147483648)

/-- The cells `(i, j)` at which the 32-bit loop body is executed, in order. -/
def visited32 (m n : Nat) : Nat → State → List (Nat × Nat)
  | 0, _ => []
  | fuel + 1, s => if loopCond m n s then (s.i, s.j) :: visited32 m n fuel (step32 s) else []

/-- The two states agree on every variable except the accumulator `sum`. -/
def SameButSum (s t : State) : Prop :=
  s.c = t.c ∧ s.sup = t.sup ∧ s.dem = t.dem ∧ s.al = t.al ∧ s.i = t.i ∧ s.j = t.j

/-- Both differences of the current residual supply and demand are values of a
32-bit `int`. -/
def SubInRange (t : State) : Prop :=
  wrap32 (t.dem t.j - t.sup t.i) = t.dem t.j - t.sup t.i ∧
  wrap32 (t.sup t.i - t.dem t.j) = t.sup t.i - t.dem t.j

/-- The invariant of the 32-bit loop that does not depend on the values of the
residuals: the cost matrix is the one read, the cells at and beyond the
cursors are `0`, and the accumulator is the cost of the allocation so far
reduced modulo `2^32`. -/
structure Inv32 (m n : Nat) (c0 : Nat → Nat → Int) (s : State) : Prop where
  c_eq : s.c = c0
  zero : ∀ r k, r < m → k < n → (s.i < r ∨ s.j < k ∨ (r = s.i ∧ k = s.j)) → s.al r k = 0
  cost : s.sum = wrap32 (costOf m n s.al c0)

/-! ## Array updates -/

theorem setVec_same (v : Nat → Int) (k : Nat) (x : Int) : setVec v k x k = x := by
  simp [setVec]

theorem setVec_other (v : Nat → Int) (k : Nat) (x : Int) (a : Nat) (h : a ≠ k) :
    setVec v k x a = v a := by
  simp [setVec, h]

theorem setCell_same (a : Nat → Nat → Int) (i j : Nat) (x : Int) :
    setCell a i j x i j = x := by
  simp [setCell]

theorem setCell_other (a : Nat → Nat → Int) (i j : Nat) (x : Int) (r k : Nat)
    (h : ¬ (r = i ∧ k = j)) : setCell a i j x r k = a r k := by
  simp [setCell, h]

theorem sum_setVec (v : Nat → Int) (k : Nat) (x : Int) (n : Nat) (hk : k < n) :
    ∑ a in Finset.range n, setVec v k x a = ∑ a in Finset.range n, v a + (x - v k) := by
  have h : ∀ a, setVec v k x a = v a + (if a = k then x - v k else 0) := by
    intro a
    by_cases ha : a = k
    · subst ha; simp [setVec]
    · simp [setVec, ha]
  simp only [h, Finset.sum_add_distrib]
  rw [Finset.sum_ite_eq' (Finset.range n) k (fun _ => x - v k)]
  simp [hk]

theorem rowSum_setCell (a : Nat → Nat → Int) (i j : Nat) (x : Int) (n r : Nat) (hj : j < n) :
    rowSum n (setCell a i j x) r = rowSum n a r + (if r = i then x - a i j else 0) := by
  unfold rowSum
  by_cases hr : r = i
  · subst hr
    have h : ∀ k, setCell a r j x r k = setVec (a r) j x k := by
      intro k; simp [setCell, setVec]
    simp only [h, if_true]
    exact sum_setVec (a r) j x n hj
  · have h : ∀ k, setCell a i j x r k = a r k := by
      intro k; simp [setCell, hr]
    simp [h, hr]

theorem colSum_setCell (a : Nat → Nat → Int) (i j : Nat) (x : Int) (m k : Nat) (hi : i < m) :
    colSum m (setCell a i j x) k = colSum m a k + (if k = j then x - a i j else 0) := by
  unfold colSum
  by_cases hk : k = j
  · subst hk
    have h : ∀ r, setCell a i k x r k = setVec (fun r => a r k) i x r := by
      intro r; simp [setCell, setVec]
    simp only [h, if_true]
    exact sum_setVec (fun r => a r k) i x m hi
  · have h : ∀ r, setCell a i j x r k = a r k := by
      intro r; simp [setCell, hk]
    simp [h, hk]

theorem costOf_setCell (a c : Nat → Nat → Int) (i j : Nat) (x : Int) (m n : Nat)
    (hi : i < m) (hj : j < n) :
    costOf m n (setCell a i j x) c = costOf m n a c + (x - a i j) * c i j := by
  unfold costOf
  have hrow : ∀ r, ∑ k in Finset.range n, setCell a i j x r k * c r k
      = ∑ k in Finset.range n, a r k * c r k + (if r = i then (x - a i j) * c i j else 0) := by
    intro r
    by_cases hr : r = i
    · subst hr
      have h : ∀ k, setCell a r j x r k * c r k
          = setVec (fun k => a r k * c r k) j (x * c r j) k := by
        intro k
        by_cases hk : k = j
        · subst hk; simp [setCell, setVec]
        · simp [setCell, setVec, hk]
      simp only [h, if_true]
      rw [sum_setVec _ j _ n hj]
      ring
    · have h : ∀ k, setCell a i j x r k = a r k := by
        intro k; simp [setCell, hr]
      simp [h, hr]
  simp only [hrow, Finset.sum_add_distrib]
  rw [Finset.sum_ite_eq' (Finset.range m) i (fun _ => (x - a i j) * c i j)]
  simp [hi]

/-! ## One iteration -/

theorem step_c (s : State) : (step s).c = s.c := by
  unfold step; split_ifs <;> rfl

theorem step_al (s : State) :
    (step s).al = setCell s.al s.i s.j (min (s.sup s.i) (s.dem s.j)) := by
  unfold step
  split_ifs with h1 h2
  · simp [min_eq_left (le_of_lt h1)]
  · simp [min_eq_right (le_of_lt h2)]
  · simp [min_eq_right (not_lt.mp h1)]

theorem step_sup (s : State) :
    (step s).sup = setVec s.sup s.i (s.sup s.i - min (s.sup s.i) (s.dem s.j)) := by
  unfold step
  split_ifs with h1 h2
  · simp [min_eq_left (le_of_lt h1)]
  · simp [min_eq_right (le_of_lt h2)]
  · have h : s.sup s.i = s.dem s.j := le_antisymm (not_lt.mp h2) (not_lt.mp h1)
    simp [h]

theorem step_dem (s : State) :
    (step s).dem = setVec s.dem s.j (s.dem s.j - min (s.sup s.i) (s.dem s.j)) := by
  unfold step
  split_ifs with h1 h2
  · simp [min_eq_left (le_of_lt h1)]
  · simp [min_eq_right (le_of_lt h2)]
  · simp [min_eq_right (not_lt.mp h1)]

theorem step_sum (s : State) :
    (step s).sum = s.sum + s.c s.i s.j * min (s.sup s.i) (s.dem s.j) := by
  unfold step
  split_ifs with h1 h2
  · simp [min_eq_left (le_of_lt h1)]
  · simp [min_eq_right (le_of_lt h2)]
  · simp [min_eq_right (not_lt.mp h1)]

theorem step_i (s : State) :
    (step s).i = if s.sup s.i ≤ s.dem s.j then s.i + 1 else s.i := by
  unfold step
  split_ifs with h1 h2 h3 h4 h5
  all_goals first | rfl | (exfalso; omega)

theorem step_j (s : State) :
    (step s).j = if s.dem s.j ≤ s.sup s.i then s.j + 1 else s.j := by
  unfold step
  split_ifs with h1 h2 h3 h4 h5
  all_goals first | rfl | (exfalso; omega)

theorem loopCond_iff (m n : Nat) (s : State) : loopCond m n s = true ↔ s.i < m ∧ s.j < n := by
  simp [loopCond]

theorem loopCond_false_iff (m n : Nat) (s : State) : loopCond m n s = false ↔ ¬ (s.i < m ∧ s.j < n) := by
  rw [← loopCond_iff]; simp

theorem step_i_mono (s : State) : s.i ≤ (step s).i := by
  rw [step_i]; split_ifs <;> omega

theorem step_j_mono (s : State) : s.j ≤ (step s).j := by
  rw [step_j]; split_ifs <;> omega

theorem step_i_le (s : State) : (step s).i ≤ s.i + 1 := by
  rw [step_i]; split_ifs <;> omega

theorem step_j_le (s : State) : (step s).j ≤ s.j + 1 := by
  rw [step_j]; split_ifs <;> omega

theorem step_advance (s : State) : s.i + s.j < (step s).i + (step s).j := by
  rw [step_i, step_j]
  split_ifs with h1 h2 h2 <;> omega

/-! ## The loop invariant -/

theorem Inv_init (m n : Nat) (c : Nat → Nat → Int) (S D : Nat → Int) (al0 : Nat → Nat → Int) :
    Inv m n c S D (init m n c S D al0) := by
  have hz : ∀ r k, r < m → k < n → initAl m n al0 r k = 0 := by
    intro r k hr hk; simp [initAl, hr, hk]
  refine ⟨rfl, Nat.zero_le _, Nat.zero_le _, ?_, ?_, ?_, ?_, ?_, ?_, ?_, ?_⟩
  · intro r k hr hk _; exact hz r k hr hk
  · intro r hr
    have : rowSum n (initAl m n al0) r = 0 := by
      unfold rowSum
      exact Finset.sum_eq_zero (fun k hk => hz r k hr (Finset.mem_range.mp hk))
    simp [init, this]
  · intro k hk
    have : colSum m (initAl m n al0) k = 0 := by
      unfold colSum
      exact Finset.sum_eq_zero (fun r hr => hz r k (Finset.mem_range.mp hr) hk)
    simp [init, this]
  · intro r _; rfl
  · intro k _; rfl
  · intro r hr; exact absurd hr (Nat.not_lt_zero r)
  · intro k hk; exact absurd hk (Nat.not_lt_zero k)
  · have : costOf m n (initAl m n al0) c = 0 := by
      unfold costOf
      refine Finset.sum_eq_zero (fun r hr => Finset.sum_eq_zero (fun k hk => ?_))
      rw [hz r k (Finset.mem_range.mp hr) (Finset.mem_range.mp hk)]; simp
    simp [init, this]

theorem Inv_step (m n : Nat) (c : Nat → Nat → Int) (S D : Nat → Int) (s : State)
    (h : Inv m n c S D s) (hi : s.i < m) (hj : s.j < n) : Inv m n c S D (step s) := by
  have h0 : s.al s.i s.j = 0 := h.zero s.i s.j hi hj (Or.inr (Or.inr ⟨rfl, rfl⟩))
  have hi1 := step_i_mono s
  have hj1 := step_j_mono s
  have hi2 := step_i_le s
  have hj2 := step_j_le s
  refine ⟨?_, ?_, ?_, ?_, ?_, ?_, ?_, ?_, ?_, ?_, ?_⟩
  · rw [step_c]; exact h.c_eq
  · omega
  · omega
  · intro r k hr hk hrk
    have hne : ¬ (r = s.i ∧ k = s.j) := by
      rintro ⟨rfl, rfl⟩
      have := step_advance s
      omega
    rw [step_al, setCell_other _ _ _ _ _ _ hne]
    apply h.zero r k hr hk
    have := step_advance s
    omega
  · intro r hr
    rw [step_sup, step_al, rowSum_setCell _ _ _ _ _ _ hj, h0]
    by_cases hri : r = s.i
    · subst hri
      rw [setVec_same, h.supRes _ hr]
      simp
      ring
    · rw [setVec_other _ _ _ _ hri, h.supRes r hr]
      simp [hri]
  · intro k hk
    rw [step_dem, step_al, colSum_setCell _ _ _ _ _ _ hi, h0]
    by_cases hkj : k = s.j
    · subst hkj
      rw [setVec_same, h.demRes _ hk]
      simp
      ring
    · rw [setVec_other _ _ _ _ hkj, h.demRes k hk]
      simp [hkj]
  · intro r hr
    rw [step_sup, setVec_other _ _ _ _ (by omega)]
    exact h.supKeep r (by omega)
  · intro k hk
    rw [step_dem, setVec_other _ _ _ _ (by omega)]
    exact h.demKeep k (by omega)
  · intro r hr
    rw [step_sup]
    by_cases hri : r = s.i
    · subst hri
      rw [setVec_same]
      rw [step_i] at hr
      split_ifs at hr with hle
      · rw [min_eq_left hle]; simp
      · omega
    · rw [setVec_other _ _ _ _ hri]
      exact h.supDone r (by omega)
  · intro k hk
    rw [step_dem]
    by_cases hkj : k = s.j
    · subst hkj
      rw [setVec_same]
      rw [step_j] at hk
      split_ifs at hk with hle
      · rw [min_eq_right hle]; simp
      · omega
    · rw [setVec_other _ _ _ _ hkj]
      exact h.demDone k (by omega)
  · rw [step_sum, step_al, costOf_setCell _ _ _ _ _ _ _ hi hj, h0, h.cost, h.c_eq]
    ring

theorem Inv_loop (m n : Nat) (c : Nat → Nat → Int) (S D : Nat → Int) (fuel : Nat) :
    ∀ s : State, Inv m n c S D s → Inv m n c S D (loop m n fuel s) := by
  induction fuel with
  | zero => intro s h; exact h
  | succ k ih =>
    intro s h
    unfold loop
    split_ifs with hc
    · obtain ⟨hi, hj⟩ := (loopCond_iff m n s).mp hc
      exact ih _ (Inv_step m n c S D s h hi hj)
    · exact h

theorem NonNeg_step (m n : Nat) (s : State) (h : NonNeg m n s) : NonNeg m n (step s) := by
  obtain ⟨hs, hd⟩ := h
  constructor
  · intro r hr
    rw [step_sup]
    by_cases hri : r = s.i
    · subst hri
      rw [setVec_same]
      have := min_le_left (s.sup s.i) (s.dem s.j)
      omega
    · rw [setVec_other _ _ _ _ hri]; exact hs r hr
  · intro k hk
    rw [step_dem]
    by_cases hkj : k = s.j
    · subst hkj
      rw [setVec_same]
      have := min_le_right (s.sup s.i) (s.dem s.j)
      omega
    · rw [setVec_other _ _ _ _ hkj]; exact hd k hk

theorem NonNeg_loop (m n : Nat) (fuel : Nat) :
    ∀ s : State, NonNeg m n s → NonNeg m n (loop m n fuel s) := by
  induction fuel with
  | zero => intro s h; exact h
  | succ k ih =>
    intro s h
    unfold loop
    split_ifs with hc
    · exact ih _ (NonNeg_step m n s h)
    · exact h

/-! ## Termination -/

theorem loop_exit (m n : Nat) (fuel : Nat) :
    ∀ s : State, (m - s.i) + (n - s.j) ≤ fuel → loopCond m n (loop m n fuel s) = false := by
  induction fuel with
  | zero =>
    intro s h
    rw [loopCond_false_iff]
    show ¬ (s.i < m ∧ s.j < n)
    omega
  | succ k ih =>
    intro s h
    unfold loop
    split_ifs with hc
    · obtain ⟨hi, hj⟩ := (loopCond_iff m n s).mp hc
      apply ih
      have := step_advance s
      have := step_i_mono s
      have := step_j_mono s
      omega
    · simpa using hc

theorem loop_stable (m n : Nat) (k : Nat) :
    ∀ (s : State) (d : Nat), loopCond m n (loop m n k s) = false →
      loop m n (k + d) s = loop m n k s := by
  induction k with
  | zero =>
    intro s d h
    cases d with
    | zero => rfl
    | succ d =>
      have h0 : loopCond m n s = false := h
      simp [loop, h0]
  | succ k ih =>
    intro s d h
    have e : k + 1 + d = (k + d) + 1 := by omega
    rw [e]
    unfold loop at h ⊢
    split_ifs at h ⊢ with hc
    · exact ih _ d h
    · rfl

theorem loop_fuel_enough (m n : Nat) (s : State) (fuel : Nat)
    (h : (m - s.i) + (n - s.j) ≤ fuel) :
    loopCond m n (loop m n fuel s) = false ∧
      loop m n fuel s = loop m n ((m - s.i) + (n - s.j)) s := by
  refine ⟨loop_exit m n fuel s h, ?_⟩
  obtain ⟨d, rfl⟩ := Nat.exists_eq_add_of_le h
  exact loop_stable m n _ s d (loop_exit m n _ s (le_refl _))

theorem visited_length (m n : Nat) (fuel : Nat) :
    ∀ s : State, loopCond m n s = true →
      (visited m n fuel s).length + 1 ≤ (m - s.i) + (n - s.j) := by
  induction fuel with
  | zero =>
    intro s hc
    obtain ⟨hi, hj⟩ := (loopCond_iff m n s).mp hc
    simp [visited]; omega
  | succ k ih =>
    intro s hc
    obtain ⟨hi, hj⟩ := (loopCond_iff m n s).mp hc
    unfold visited
    rw [if_pos hc, List.length_cons]
    have := step_advance s
    have := step_i_mono s
    have := step_j_mono s
    by_cases hc2 : loopCond m n (step s) = true
    · have := ih _ hc2
      omega
    · have e : visited m n k (step s) = [] := by
        cases k with
        | zero => rfl
        | succ k => unfold visited; rw [if_neg hc2]
      rw [e]; simp; omega

theorem loop_succ_back (m n : Nat) (k : Nat) :
    ∀ s : State, loop m n (k + 1) s
      = if loopCond m n (loop m n k s) then step (loop m n k s) else loop m n k s := by
  induction k with
  | zero => intro s; simp [loop]
  | succ k ih =>
    intro s
    by_cases hc : loopCond m n s = true
    · have e1 : loop m n (k + 1 + 1) s = loop m n (k + 1) (step s) := by
        rw [loop, if_pos hc]
      have e2 : loop m n (k + 1) s = loop m n k (step s) := by
        rw [loop, if_pos hc]
      rw [e1, e2]
      exact ih (step s)
    · have e1 : loop m n (k + 1 + 1) s = s := by rw [loop, if_neg hc]
      have e2 : loop m n (k + 1) s = s := by rw [loop, if_neg hc]
      rw [e1, e2, if_neg hc]

theorem visited_succ_back (m n : Nat) (k : Nat) :
    ∀ s : State, visited m n (k + 1) s
      = visited m n k s ++
          (if loopCond m n (loop m n k s) then [((loop m n k s).i, (loop m n k s).j)] else []) := by
  induction k with
  | zero => intro s; simp [visited, loop]
  | succ k ih =>
    intro s
    by_cases hc : loopCond m n s = true
    · have e1 : visited m n (k + 1 + 1) s = (s.i, s.j) :: visited m n (k + 1) (step s) := by
        rw [visited, if_pos hc]
      have e2 : visited m n (k + 1) s = (s.i, s.j) :: visited m n k (step s) := by
        rw [visited, if_pos hc]
      have e3 : loop m n (k + 1) s = loop m n k (step s) := by
        rw [loop, if_pos hc]
      rw [e1, e2, e3, ih (step s)]
      simp
    · have e1 : visited m n (k + 1 + 1) s = [] := by rw [visited, if_neg hc]
      have e2 : visited m n (k + 1) s = [] := by rw [visited, if_neg hc]
      have e3 : loop m n (k + 1) s = s := by rw [loop, if_neg hc]
      rw [e1, e2, e3, if_neg hc]
      rfl

theorem visited_stable (m n : Nat) (k : Nat) (s : State)
    (h : loopCond m n (loop m n k s) = false) :
    ∀ d, visited m n (k + d) s = visited m n k s := by
  intro d
  induction d with
  | zero => rfl
  | succ d ih =>
    have e : k + (d + 1) = (k + d) + 1 := by omega
    rw [e, visited_succ_back, loop_stable m n k s d h, h, ih]
    simp

theorem loop_eq_iterate (m n : Nat) (fuel : Nat) :
    ∀ s : State, loop m n fuel s = step^[(visited m n fuel s).length] s := by
  induction fuel with
  | zero => intro s; rfl
  | succ k ih =>
    intro s
    by_cases hc : loopCond m n s = true
    · rw [loop, visited, if_pos hc, if_pos hc, List.length_cons,
        Function.iterate_succ_apply]
      exact ih (step s)
    · rw [loop, visited, if_neg hc, if_neg hc]
      rfl

theorem sum_rowSum_eq_sum_colSum (m n : Nat) (a : Nat → Nat → Int) :
    ∑ i in Finset.range m, rowSum n a i = ∑ j in Finset.range n, colSum m a j := by
  unfold rowSum colSum
  exact Finset.sum_comm

theorem nwc_Inv (m n : Nat) (c : Nat → Nat → Int) (S D : Nat → Int) (al0 : Nat → Nat → Int) :
    Inv m n c S D (nwc m n c S D al0) :=
  Inv_loop m n c S D (m + n) _ (Inv_init m n c S D al0)

theorem nwc_NonNeg (m n : Nat) (c : Nat → Nat → Int) (S D : Nat → Int)
    (al0 : Nat → Nat → Int) (hS : ∀ i, i < m → 0 ≤ S i) (hD : ∀ j, j < n → 0 ≤ D j) :
    NonNeg m n (nwc m n c S D al0) :=
  NonNeg_loop m n (m + n) _ ⟨hS, hD⟩

theorem nwc_exit (m n : Nat) (c : Nat → Nat → Int) (S D : Nat → Int) (al0 : Nat → Nat → Int) :
    loopCond m n (nwc m n c S D al0) = false := by
  apply loop_exit
  show (m - 0) + (n - 0) ≤ m + n
  omega

theorem loop_of_not_cond (m n : Nat) (fuel : Nat) (s : State) (h : loopCond m n s = false) :
    loop m n fuel s = s := by
  cases fuel with
  | zero => rfl
  | succ k => rw [loop, h]; rfl

theorem visited_of_not_cond (m n : Nat) (fuel : Nat) (s : State) (h : loopCond m n s = false) :
    visited m n fuel s = [] := by
  cases fuel with
  | zero => rfl
  | succ k => rw [visited, h]; rfl

/-! ## Problems with equal supplies and demands -/

theorem diag_step (n : Nat) (c : Nat → Nat → Int) (S D : Nat → Int) (k : Nat) (s : State)
    (h : DiagInv n c S D k s) (hSD : S k = D k) : DiagInv n c S D (k + 1) (step s) := by
  obtain ⟨hc, hi, hj, hs, hd, ha, hsum⟩ := h
  have e1 : s.sup s.i = S k := by rw [hi]; exact hs k (le_refl k)
  have e2 : s.dem s.j = S k := by rw [hj, hSD]; exact hd k (le_refl k)
  have emin : min (s.sup s.i) (s.dem s.j) = S k := by rw [e1, e2]; simp
  refine ⟨?_, ?_, ?_, ?_, ?_, ?_, ?_⟩
  · rw [step_c]; exact hc
  · rw [step_i, e1, e2]; simp [hi]
  · rw [step_j, e1, e2]; simp [hj]
  · intro x hx
    rw [step_sup, setVec_other _ _ _ _ (by omega)]
    exact hs x (by omega)
  · intro x hx
    rw [step_dem, setVec_other _ _ _ _ (by omega)]
    exact hd x (by omega)
  · intro a b hA hB
    rw [step_al, emin, hi, hj]
    by_cases hab : a = k ∧ b = k
    · obtain ⟨rfl, rfl⟩ := hab
      rw [setCell_same]; simp
    · rw [setCell_other _ _ _ _ _ _ hab, ha a b hA hB]
      by_cases hEq : a = b
      · subst hEq
        have hne : a ≠ k := fun h => hab ⟨h, h⟩
        have hiff : a < k + 1 ↔ a < k := by omega
        simp [hiff]
      · simp [hEq]
  · rw [step_sum, emin, hsum, hc, hi, hj, Finset.sum_range_succ]
    ring

theorem diag_loop (n : Nat) (c : Nat → Nat → Int) (S D : Nat → Int) (al0 : Nat → Nat → Int)
    (h : ∀ k, k < n → S k = D k) :
    ∀ k, k ≤ n → DiagInv n c S D k (loop n n k (init n n c S D al0)) := by
  intro k
  induction k with
  | zero =>
    intro _
    refine ⟨rfl, rfl, rfl, fun x _ => rfl, fun x _ => rfl, ?_, ?_⟩
    · intro a b hA hB
      show initAl n n al0 a b = _
      simp [initAl, hA, hB]
    · simp [loop, init]
  | succ k ih =>
    intro hk
    have hprev := ih (by omega)
    have hcond : loopCond n n (loop n n k (init n n c S D al0)) = true := by
      rw [loopCond_iff, hprev.2.1, hprev.2.2.1]
      omega
    rw [loop_succ_back, if_pos hcond]
    exact diag_step n c S D k _ hprev (h k (by omega))

theorem diag_final (n : Nat) (c : Nat → Nat → Int) (S D : Nat → Int) (al0 : Nat → Nat → Int)
    (h : ∀ k, k < n → S k = D k) :
    loopCond n n (loop n n n (init n n c S D al0)) = false ∧
      nwc n n c S D al0 = loop n n n (init n n c S D al0) := by
  have hD := diag_loop n c S D al0 h n (le_refl n)
  have hcond : loopCond n n (loop n n n (init n n c S D al0)) = false := by
    rw [loopCond_false_iff, hD.2.1]
    omega
  exact ⟨hcond, loop_stable n n n _ n hcond⟩

theorem diag_visited (n : Nat) (c : Nat → Nat → Int) (S D : Nat → Int) (al0 : Nat → Nat → Int)
    (h : ∀ k, k < n → S k = D k) :
    ∀ k, k ≤ n →
      visited n n k (init n n c S D al0) = (List.range k).map (fun x => (x, x)) := by
  intro k
  induction k with
  | zero => intro _; rfl
  | succ k ih =>
    intro hk
    have hprev := diag_loop n c S D al0 h k (by omega)
    have hcond : loopCond n n (loop n n k (init n n c S D al0)) = true := by
      rw [loopCond_iff, hprev.2.1, hprev.2.2.1]
      omega
    rw [visited_succ_back, if_pos hcond, ih (by omega), hprev.2.1, hprev.2.2.1,
      List.range_succ, List.map_append]
    rfl

/-! ## The claims -/

/-- C1 (feasibility).  For non-negative supplies and demands, every row sum of
the final allocation matrix is at most the original supply of that row and
every column sum is at most the original demand of that column. -/
theorem feasibility (m n : Nat) (c : Nat → Nat → Int) (S D : Nat → Int)
    (al0 : Nat → Nat → Int) (hS : ∀ i, i < m → 0 ≤ S i) (hD : ∀ j, j < n → 0 ≤ D j) :
    (∀ i, i < m → rowSum n (nwc m n c S D al0).al i ≤ S i) ∧
      (∀ j, j < n → colSum m (nwc m n c S D al0).al j ≤ D j) := by
  have hI := nwc_Inv m n c S D al0
  obtain ⟨hs, hd⟩ := nwc_NonNeg m n c S D al0 hS hD
  constructor
  · intro i hi
    have h1 := hI.supRes i hi
    have h2 := hs i hi
    omega
  · intro j hj
    have h1 := hI.demRes j hj
    have h2 := hd j hj
    omega

/-- Witness of C1 on the unbalanced problem `S = [3]`, `D = [5, 4]`. -/
theorem feasibility_witness :
    ((∀ i, i < 1 → 0 ≤ vec [3] i) ∧ (∀ j, j < 2 → 0 ≤ vec [5, 4] j)) ∧
    ((∀ i, i < 1 → rowSum 2 (nwc 1 2 (mat [[1, 1]]) (vec [3]) (vec [5, 4]) stale).al i ≤ vec [3] i) ∧
      (∀ j, j < 2 → colSum 1 (nwc 1 2 (mat [[1, 1]]) (vec [3]) (vec [5, 4]) stale).al j ≤ vec [5, 4] j)) :=
  ⟨⟨by decide, by decide⟩,
    feasibility 1 2 (mat [[1, 1]]) (vec [3]) (vec [5, 4]) stale (by decide) (by decide)⟩

/-- C2 (balanced case).  For non-negative supplies and demands with equal
totals, every row sum of the final allocation matrix equals the original
supply and every column sum equals the original demand. -/
theorem balanced_equality (m n : Nat) (c : Nat → Nat → Int) (S D : Nat → Int)
    (al0 : Nat → Nat → Int) (hS : ∀ i, i < m → 0 ≤ S i) (hD : ∀ j, j < n → 0 ≤ D j)
    (hbal : total m S = total n D) :
    (∀ i, i < m → rowSum n (nwc m n c S D al0).al i = S i) ∧
      (∀ j, j < n → colSum m (nwc m n c S D al0).al j = D j) := by
  have hI := nwc_Inv m n c S D al0
  obtain ⟨hs, hd⟩ := nwc_NonNeg m n c S D al0 hS hD
  have hx := (loopCond_false_iff m n _).mp (nwc_exit m n c S D al0)
  have hcomm := sum_rowSum_eq_sum_colSum m n (nwc m n c S D al0).al
  have hsupsum : ∑ i in Finset.range m, (nwc m n c S D al0).sup i
      = total m S - ∑ i in Finset.range m, rowSum n (nwc m n c S D al0).al i := by
    unfold total
    rw [← Finset.sum_sub_distrib]
    exact Finset.sum_congr rfl (fun i hi => hI.supRes i (Finset.mem_range.mp hi))
  have hdemsum : ∑ j in Finset.range n, (nwc m n c S D al0).dem j
      = total n D - ∑ j in Finset.range n, colSum m (nwc m n c S D al0).al j := by
    unfold total
    rw [← Finset.sum_sub_distrib]
    exact Finset.sum_congr rfl (fun j hj => hI.demRes j (Finset.mem_range.mp hj))
  have hsum : ∑ i in Finset.range m, (nwc m n c S D al0).sup i
      = ∑ j in Finset.range n, (nwc m n c S D al0).dem j := by
    rw [hsupsum, hdemsum, hcomm, hbal]
  have hsup0 : (∀ i, i < m → (nwc m n c S D al0).sup i = 0) ∧
      (∀ j, j < n → (nwc m n c S D al0).dem j = 0) := by
    by_cases hi : (nwc m n c S D al0).i < m
    · have hj : n ≤ (nwc m n c S D al0).j := by
        by_contra hlt
        exact hx ⟨hi, by omega⟩
      have hd0 : ∀ j, j < n → (nwc m n c S D al0).dem j = 0 :=
        fun j hj2 => hI.demDone j (by omega)
      have hz : ∑ i in Finset.range m, (nwc m n c S D al0).sup i = 0 := by
        rw [hsum]
        exact Finset.sum_eq_zero (fun j hj2 => hd0 j (Finset.mem_range.mp hj2))
      refine ⟨fun i hi2 => ?_, hd0⟩
      exact (Finset.sum_eq_zero_iff_of_nonneg
        (fun i hi3 => hs i (Finset.mem_range.mp hi3))).mp hz i (Finset.mem_range.mpr hi2)
    · have hs0 : ∀ i, i < m → (nwc m n c S D al0).sup i = 0 :=
        fun i hi2 => hI.supDone i (by omega)
      have hz : ∑ j in Finset.range n, (nwc m n c S D al0).dem j = 0 := by
        rw [← hsum]
        exact Finset.sum_eq_zero (fun i hi2 => hs0 i (Finset.mem_range.mp hi2))
      refine ⟨hs0, fun j hj2 => ?_⟩
      exact (Finset.sum_eq_zero_iff_of_nonneg
        (fun j hj3 => hd j (Finset.mem_range.mp hj3))).mp hz j (Finset.mem_range.mpr hj2)
  constructor
  · intro i hi
    have h1 := hI.supRes i hi
    have h2 := hsup0.1 i hi
    omega
  · intro j hj
    have h1 := hI.demRes j hj
    have h2 := hsup0.2 j hj
    omega

/-- Witness of C2 on Scenario 2 (`S = [6, 10]`, `D = [4, 6, 6]`, totals `16`). -/
theorem balanced_equality_witness :
    ((∀ i, i < 2 → 0 ≤ vec [6, 10] i) ∧ (∀ j, j < 3 → 0 ≤ vec [4, 6, 6] j) ∧
      total 2 (vec [6, 10]) = total 3 (vec [4, 6, 6])) ∧
    ((∀ i, i < 2 → rowSum 3 (nwc 2 3 (mat [[2, 3, 1], [5, 4, 8]]) (vec [6, 10]) (vec [4, 6, 6]) stale).al i = vec [6, 10] i) ∧
      (∀ j, j < 3 → colSum 2 (nwc 2 3 (mat [[2, 3, 1], [5, 4, 8]]) (vec [6, 10]) (vec [4, 6, 6]) stale).al j = vec [4, 6, 6] j)) :=
  ⟨⟨by decide, by decide, by decide⟩,
    balanced_equality 2 3 (mat [[2, 3, 1], [5, 4, 8]]) (vec [6, 10]) (vec [4, 6, 6]) stale
      (by decide) (by decide) (by decide)⟩

/-- C4 (termination bound).  For `m, n ≥ 1` and arbitrary arrays: the run with
`m + n` units of fuel ends with the loop condition false, any larger fuel
gives the same final state, the final state is the initial state after exactly
as many executions of the body as there are visited cells, that number is at
most `m + n - 1` whatever the fuel, and every execution of the body leaves no
cursor smaller and makes `i + j` strictly larger. -/
theorem termination_bound (m n : Nat) (c : Nat → Nat → Int) (S D : Nat → Int)
    (al0 : Nat → Nat → Int) (hm : 1 ≤ m) (hn : 1 ≤ n) :
    loopCond m n (nwc m n c S D al0) = false ∧
    (∀ fuel, m + n ≤ fuel → loop m n fuel (init m n c S D al0) = nwc m n c S D al0) ∧
    nwc m n c S D al0
      = step^[(visited m n (m + n) (init m n c S D al0)).length] (init m n c S D al0) ∧
    (∀ fuel, (visited m n fuel (init m n c S D al0)).length ≤ m + n - 1) ∧
    (∀ s : State, s.i ≤ (step s).i ∧ s.j ≤ (step s).j ∧ s.i + s.j < (step s).i + (step s).j) := by
  refine ⟨nwc_exit m n c S D al0, ?_, loop_eq_iterate m n (m + n) _, ?_, ?_⟩
  · intro fuel hf
    obtain ⟨d, rfl⟩ := Nat.exists_eq_add_of_le hf
    exact loop_stable m n (m + n) _ d (nwc_exit m n c S D al0)
  · intro fuel
    have hc : loopCond m n (init m n c S D al0) = true := by
      rw [loopCond_iff]
      exact ⟨hm, hn⟩
    have h := visited_length m n fuel _ hc
    have e : (init m n c S D al0).i = 0 := rfl
    have e2 : (init m n c S D al0).j = 0 := rfl
    rw [e, e2] at h
    omega
  · intro s
    exact ⟨step_i_mono s, step_j_mono s, step_advance s⟩

/-- Witness of C4 on Scenario 2 (`m = 2`, `n = 3`). -/
theorem termination_bound_witness :
    (1 ≤ 2 ∧ 1 ≤ 3) ∧
    (loopCond 2 3 (nwc 2 3 (mat [[2, 3, 1], [5, 4, 8]]) (vec [6, 10]) (vec [4, 6, 6]) stale) = false ∧
      (∀ fuel, 2 + 3 ≤ fuel → loop 2 3 fuel (init 2 3 (mat [[2, 3, 1], [5, 4, 8]]) (vec [6, 10]) (vec [4, 6, 6]) stale) = nwc 2 3 (mat [[2, 3, 1], [5, 4, 8]]) (vec [6, 10]) (vec [4, 6, 6]) stale) ∧
      nwc 2 3 (mat [[2, 3, 1], [5, 4, 8]]) (vec [6, 10]) (vec [4, 6, 6]) stale
        = step^[(visited 2 3 (2 + 3) (init 2 3 (mat [[2, 3, 1], [5, 4, 8]]) (vec [6, 10]) (vec [4, 6, 6]) stale)).length] (init 2 3 (mat [[2, 3, 1], [5, 4, 8]]) (vec [6, 10]) (vec [4, 6, 6]) stale) ∧
      (∀ fuel, (visited 2 3 fuel (init 2 3 (mat [[2, 3, 1], [5, 4, 8]]) (vec [6, 10]) (vec [4, 6, 6]) stale)).length ≤ 2 + 3 - 1) ∧
      (∀ s : State, s.i ≤ (step s).i ∧ s.j ≤ (step s).j ∧
        s.i + s.j < (step s).i + (step s).j)) :=
  ⟨⟨by decide, by decide⟩,
    termination_bound 2 3 (mat [[2, 3, 1], [5, 4, 8]]) (vec [6, 10]) (vec [4, 6, 6]) stale
      (by decide) (by decide)⟩

/-- C5 (Scenario 2).  For `m = 2`, `n = 3`, `C = [[2,3,1],[5,4,8]]`,
`S = [6,10]`, `D = [4,6,6]` the loop leaves `A = [[4,2,0],[0,4,6]]` and total
cost `78`, executes its body at the cells `(0,0)`, `(0,1)`, `(1,1)`, `(1,2)` in
that order, and ends with `i = 2`, `j = 3`. -/
theorem scenario_two (al0 : Nat → Nat → Int) :
    (nwc 2 3 (mat [[2, 3, 1], [5, 4, 8]]) (vec [6, 10]) (vec [4, 6, 6]) al0).al 0 0 = 4 ∧
    (nwc 2 3 (mat [[2, 3, 1], [5, 4, 8]]) (vec [6, 10]) (vec [4, 6, 6]) al0).al 0 1 = 2 ∧
    (nwc 2 3 (mat [[2, 3, 1], [5, 4, 8]]) (vec [6, 10]) (vec [4, 6, 6]) al0).al 0 2 = 0 ∧
    (nwc 2 3 (mat [[2, 3, 1], [5, 4, 8]]) (vec [6, 10]) (vec [4, 6, 6]) al0).al 1 0 = 0 ∧
    (nwc 2 3 (mat [[2, 3, 1], [5, 4, 8]]) (vec [6, 10]) (vec [4, 6, 6]) al0).al 1 1 = 4 ∧
    (nwc 2 3 (mat [[2, 3, 1], [5, 4, 8]]) (vec [6, 10]) (vec [4, 6, 6]) al0).al 1 2 = 6 ∧
    (nwc 2 3 (mat [[2, 3, 1], [5, 4, 8]]) (vec [6, 10]) (vec [4, 6, 6]) al0).sum = 78 ∧
    visited 2 3 (2 + 3) (init 2 3 (mat [[2, 3, 1], [5, 4, 8]]) (vec [6, 10]) (vec [4, 6, 6]) al0)
      = [(0, 0), (0, 1), (1, 1), (1, 2)] ∧
    (nwc 2 3 (mat [[2, 3, 1], [5, 4, 8]]) (vec [6, 10]) (vec [4, 6, 6]) al0).i = 2 ∧
    (nwc 2 3 (mat [[2, 3, 1], [5, 4, 8]]) (vec [6, 10]) (vec [4, 6, 6]) al0).j = 3 := by
  refine ⟨?_, ?_, ?_, ?_, ?_, ?_, ?_, ?_, ?_, ?_⟩ <;>
    simp [nwc, loop, visited, loopCond, init, step, setCell, setVec, initAl, vec, mat]

/-- C10 (untouched rows and columns).  With `(i_f, j_f)` the cursors at the
exit of the loop, every row of the `m × n` block with index above `i_f` is
all `0` in `A` and keeps its supply entry, every column with index above `j_f`
is all `0` in `A` and keeps its demand entry, and the cost matrix is the one
read from the input. -/
theorem untouched_rows_columns (m n : Nat) (c : Nat → Nat → Int) (S D : Nat → Int)
    (al0 : Nat → Nat → Int) :
    (∀ r k, (nwc m n c S D al0).i < r → r < m → k < n → (nwc m n c S D al0).al r k = 0) ∧
    (∀ r, (nwc m n c S D al0).i < r → (nwc m n c S D al0).sup r = S r) ∧
    (∀ r k, (nwc m n c S D al0).j < k → r < m → k < n → (nwc m n c S D al0).al r k = 0) ∧
    (∀ k, (nwc m n c S D al0).j < k → (nwc m n c S D al0).dem k = D k) ∧
    (nwc m n c S D al0).c = c ∧
    (∀ s : State, (step s).c = s.c) := by
  have hF := nwc_Inv m n c S D al0
  refine ⟨?_, hF.supKeep, ?_, hF.demKeep, hF.c_eq, step_c⟩
  · intro r k hr hrm hkn
    exact hF.zero r k hrm hkn (Or.inl hr)
  · intro r k hk hrm hkn
    exact hF.zero r k hrm hkn (Or.inr (Or.inl hk))

/-- Witness of C10 on `m = 3`, `n = 1`, `S = [5, 1, 1]`, `D = [2]`: the loop
stops with `i = 0`, and row `2` is all `0` with its supply entry unchanged. -/
theorem untouched_rows_columns_witness :
    ((nwc 3 1 (mat [[1], [1], [1]]) (vec [5, 1, 1]) (vec [2]) stale).i < 2 ∧ 2 < 3 ∧ 0 < 1) ∧
    (nwc 3 1 (mat [[1], [1], [1]]) (vec [5, 1, 1]) (vec [2]) stale).al 2 0 = 0 ∧
    (nwc 3 1 (mat [[1], [1], [1]]) (vec [5, 1, 1]) (vec [2]) stale).sup 2 = vec [5, 1, 1] 2 :=
  ⟨⟨by decide, by decide, by decide⟩,
    (untouched_rows_columns 3 1 (mat [[1], [1], [1]]) (vec [5, 1, 1]) (vec [2]) stale).1 2 0
      (by decide) (by decide) (by decide),
    (untouched_rows_columns 3 1 (mat [[1], [1], [1]]) (vec [5, 1, 1]) (vec [2]) stale).2.1 2
      (by decide)⟩

/-! ## Shipped units -/

theorem shipped_eq_rows (m n : Nat) (a : Nat → Nat → Int) :
    shipped m n a = ∑ i in Finset.range m, rowSum n a i := rfl

theorem shipped_eq_cols (m n : Nat) (a : Nat → Nat → Int) :
    shipped m n a = ∑ j in Finset.range n, colSum m a j := by
  rw [shipped_eq_rows, sum_rowSum_eq_sum_colSum]

theorem Inv_sum_sup (m n : Nat) (c : Nat → Nat → Int) (S D : Nat → Int) (s : State)
    (h : Inv m n c S D s) :
    ∑ i in Finset.range m, s.sup i = total m S - shipped m n s.al := by
  rw [shipped_eq_rows]
  unfold total
  rw [← Finset.sum_sub_distrib]
  exact Finset.sum_congr rfl (fun i hi => h.supRes i (Finset.mem_range.mp hi))

theorem Inv_sum_dem (m n : Nat) (c : Nat → Nat → Int) (S D : Nat → Int) (s : State)
    (h : Inv m n c S D s) :
    ∑ j in Finset.range n, s.dem j = total n D - shipped m n s.al := by
  rw [shipped_eq_cols]
  unfold total
  rw [← Finset.sum_sub_distrib]
  exact Finset.sum_congr rfl (fun j hj => h.demRes j (Finset.mem_range.mp hj))

theorem shipped_le (m n : Nat) (c : Nat → Nat → Int) (S D : Nat → Int) (s : State)
    (h : Inv m n c S D s) (hp : NonNeg m n s) :
    shipped m n s.al ≤ total m S ∧ shipped m n s.al ≤ total n D := by
  have h1 := Inv_sum_sup m n c S D s h
  have h2 := Inv_sum_dem m n c S D s h
  have p1 : 0 ≤ ∑ i in Finset.range m, s.sup i :=
    Finset.sum_nonneg (fun i hi => hp.1 i (Finset.mem_range.mp hi))
  have p2 : 0 ≤ ∑ j in Finset.range n, s.dem j :=
    Finset.sum_nonneg (fun j hj => hp.2 j (Finset.mem_range.mp hj))
  constructor <;> omega

theorem exit_residuals (m n : Nat) (c : Nat → Nat → Int) (S D : Nat → Int) (s : State)
    (h : Inv m n c S D s) (hx : loopCond m n s = false) :
    (∀ r, r < m → s.sup r = 0) ∨ (∀ k, k < n → s.dem k = 0) := by
  have hx2 := (loopCond_false_iff m n s).mp hx
  by_cases hi : s.i < m
  · right
    intro k hk
    apply h.demDone k
    by_contra hlt
    exact hx2 ⟨hi, by omega⟩
  · left
    intro r hr
    exact h.supDone r (by omega)

theorem exit_shipped (m n : Nat) (c : Nat → Nat → Int) (S D : Nat → Int) (s : State)
    (h : Inv m n c S D s) (hx : loopCond m n s = false) :
    shipped m n s.al = total m S ∨ shipped m n s.al = total n D := by
  rcases exit_residuals m n c S D s h hx with h0 | h0
  · left
    have h1 := Inv_sum_sup m n c S D s h
    have z : ∑ i in Finset.range m, s.sup i = 0 :=
      Finset.sum_eq_zero (fun i hi => h0 i (Finset.mem_range.mp hi))
    omega
  · right
    have h2 := Inv_sum_dem m n c S D s h
    have z : ∑ j in Finset.range n, s.dem j = 0 :=
      Finset.sum_eq_zero (fun j hj => h0 j (Finset.mem_range.mp hj))
    omega

/-! ## Non-negative cells -/

theorem AlNonNeg_init (m n : Nat) (c : Nat → Nat → Int) (S D : Nat → Int)
    (al0 : Nat → Nat → Int) : AlNonNeg m n (init m n c S D al0) := by
  intro r k hr hk
  show 0 ≤ initAl m n al0 r k
  simp [initAl, hr, hk]

theorem AlNonNeg_step (m n : Nat) (s : State) (hp : NonNeg m n s) (ha : AlNonNeg m n s) :
    AlNonNeg m n (step s) := by
  intro r k hr hk
  rw [step_al]
  by_cases hrk : r = s.i ∧ k = s.j
  · obtain ⟨e1, e2⟩ := hrk
    rw [e1, e2, setCell_same]
    exact le_min (hp.1 s.i (e1 ▸ hr)) (hp.2 s.j (e2 ▸ hk))
  · rw [setCell_other _ _ _ _ _ _ hrk]
    exact ha r k hr hk

theorem AlNonNeg_loop (m n : Nat) (fuel : Nat) :
    ∀ s : State, NonNeg m n s → AlNonNeg m n s → AlNonNeg m n (loop m n fuel s) := by
  induction fuel with
  | zero => intro s _ h; exact h
  | succ k ih =>
    intro s hp ha
    unfold loop
    split_ifs with hc
    · exact ih _ (NonNeg_step m n s hp) (AlNonNeg_step m n s hp ha)
    · exact ha

/-! ## The claims, continued -/

/-- C11 (maximal shipment).  For non-negative supplies and demands, the sum of
all cells of the final allocation matrix is the smaller of the total supply
and the total demand; at the exit of the loop either no supply or no demand
remains. -/
theorem maximal_shipment (m n : Nat) (c : Nat → Nat → Int) (S D : Nat → Int)
    (al0 : Nat → Nat → Int) (hS : ∀ i, i < m → 0 ≤ S i) (hD : ∀ j, j < n → 0 ≤ D j) :
    ∑ i in Finset.range m, ∑ j in Finset.range n, (nwc m n c S D al0).al i j
      = min (total m S) (total n D) ∧
    shipped m n (nwc m n c S D al0).al = min (total m S) (total n D) ∧
    ((∀ r, r < m → (nwc m n c S D al0).sup r = 0) ∨
      (∀ k, k < n → (nwc m n c S D al0).dem k = 0)) := by
  have hI := nwc_Inv m n c S D al0
  have hP := nwc_NonNeg m n c S D al0 hS hD
  have hX := nwc_exit m n c S D al0
  obtain ⟨l1, l2⟩ := shipped_le m n c S D _ hI hP
  have key : shipped m n (nwc m n c S D al0).al = min (total m S) (total n D) := by
    rcases exit_shipped m n c S D _ hI hX with e | e
    · rw [e] at l2 ⊢
      exact (min_eq_left l2).symm
    · rw [e] at l1 ⊢
      exact (min_eq_right l1).symm
  exact ⟨key, key, exit_residuals m n c S D _ hI hX⟩

/-- Witness of C11 on the unbalanced problem `S = [3]`, `D = [5, 4]`: `3` units
are shipped, the smaller of the totals `3` and `9`. -/
theorem maximal_shipment_witness :
    ((∀ i, i < 1 → 0 ≤ vec [3] i) ∧ (∀ j, j < 2 → 0 ≤ vec [5, 4] j)) ∧
    shipped 1 2 (nwc 1 2 (mat [[1, 1]]) (vec [3]) (vec [5, 4]) stale).al = 3 ∧
    min (total 1 (vec [3])) (total 2 (vec [5, 4])) = 3 :=
  ⟨⟨by decide, by decide⟩,
    ((maximal_shipment 1 2 (mat [[1, 1]]) (vec [3]) (vec [5, 4]) stale
      (by decide) (by decide)).2.1).trans (by decide),
    by decide⟩

/-- C12 (passed rows and columns are fully served).  With `(i_f, j_f)` the
cursors at the exit of the loop, every row below `i_f` has residual supply `0`
and row sum equal to its original supply, every column below `j_f` has
residual demand `0` and column sum equal to its original demand, and
`i_f = m` or `j_f = n`. -/
theorem passed_fully_served (m n : Nat) (c : Nat → Nat → Int) (S D : Nat → Int)
    (al0 : Nat → Nat → Int) :
    (∀ r, r < (nwc m n c S D al0).i →
      (nwc m n c S D al0).sup r = 0 ∧ rowSum n (nwc m n c S D al0).al r = S r) ∧
    (∀ k, k < (nwc m n c S D al0).j →
      (nwc m n c S D al0).dem k = 0 ∧ colSum m (nwc m n c S D al0).al k = D k) ∧
    ((nwc m n c S D al0).i = m ∨ (nwc m n c S D al0).j = n) := by
  have hI := nwc_Inv m n c S D al0
  have hX := (loopCond_false_iff m n _).mp (nwc_exit m n c S D al0)
  have hi := hI.i_le
  have hj := hI.j_le
  refine ⟨?_, ?_, ?_⟩
  · intro r hr
    have h0 := hI.supDone r hr
    have h1 := hI.supRes r (by omega)
    exact ⟨h0, by omega⟩
  · intro k hk
    have h0 := hI.demDone k hk
    have h1 := hI.demRes k (by omega)
    exact ⟨h0, by omega⟩
  · by_contra hne
    push_neg at hne
    exact hX ⟨by omega, by omega⟩

/-- Witness of C12 on Scenario 2: the loop ends with `i = 2`, and row `1` has
residual supply `0` and row sum `10`. -/
theorem passed_fully_served_witness :
    (1 < (nwc 2 3 (mat [[2, 3, 1], [5, 4, 8]]) (vec [6, 10]) (vec [4, 6, 6]) stale).i) ∧
    (nwc 2 3 (mat [[2, 3, 1], [5, 4, 8]]) (vec [6, 10]) (vec [4, 6, 6]) stale).sup 1 = 0 ∧
    rowSum 3 (nwc 2 3 (mat [[2, 3, 1], [5, 4, 8]]) (vec [6, 10]) (vec [4, 6, 6]) stale).al 1
      = vec [6, 10] 1 :=
  ⟨by decide,
    (passed_fully_served 2 3 (mat [[2, 3, 1], [5, 4, 8]]) (vec [6, 10]) (vec [4, 6, 6])
      stale).1 1 (by decide)⟩

/-- C13 (non-negativity).  For non-negative supplies and demands, after any
number of iterations every residual supply and demand of the problem and every
cell of the allocation matrix is non-negative; in particular every cell of the
final allocation matrix is non-negative. -/
theorem nonnegativity (m n : Nat) (c : Nat → Nat → Int) (S D : Nat → Int)
    (al0 : Nat → Nat → Int) (hS : ∀ i, i < m → 0 ≤ S i) (hD : ∀ j, j < n → 0 ≤ D j) :
    (∀ fuel r, r < m → 0 ≤ (loop m n fuel (init m n c S D al0)).sup r) ∧
    (∀ fuel k, k < n → 0 ≤ (loop m n fuel (init m n c S D al0)).dem k) ∧
    (∀ fuel r k, r < m → k < n → 0 ≤ (loop m n fuel (init m n c S D al0)).al r k) ∧
    (∀ r k, r < m → k < n → 0 ≤ (nwc m n c S D al0).al r k) := by
  have hP : ∀ fuel, NonNeg m n (loop m n fuel (init m n c S D al0)) :=
    fun fuel => NonNeg_loop m n fuel _ ⟨hS, hD⟩
  have hA : ∀ fuel, AlNonNeg m n (loop m n fuel (init m n c S D al0)) :=
    fun fuel => AlNonNeg_loop m n fuel _ ⟨hS, hD⟩ (AlNonNeg_init m n c S D al0)
  exact ⟨fun fuel => (hP fuel).1, fun fuel => (hP fuel).2, hA, hA (m + n)⟩

/-- Witness of C13 on Scenario 2 after one iteration: the residual supply of
row `0` is `2` and the cell `(0, 0)` holds `4`. -/
theorem nonnegativity_witness :
    ((∀ i, i < 2 → 0 ≤ vec [6, 10] i) ∧ (∀ j, j < 3 → 0 ≤ vec [4, 6, 6] j)) ∧
    0 ≤ (loop 2 3 1
      (init 2 3 (mat [[2, 3, 1], [5, 4, 8]]) (vec [6, 10]) (vec [4, 6, 6]) stale)).sup 0 ∧
    0 ≤ (nwc 2 3 (mat [[2, 3, 1], [5, 4, 8]]) (vec [6, 10]) (vec [4, 6, 6]) stale).al 0 0 :=
  ⟨⟨by decide, by decide⟩,
    (nonnegativity 2 3 (mat [[2, 3, 1], [5, 4, 8]]) (vec [6, 10]) (vec [4, 6, 6]) stale
      (by decide) (by decide)).1 1 0 (by decide),
    (nonnegativity 2 3 (mat [[2, 3, 1], [5, 4, 8]]) (vec [6, 10]) (vec [4, 6, 6]) stale
      (by decide) (by decide)).2.2.2 0 0 (by decide) (by decide)⟩

/-! ## The path of the cursors -/

theorem stairStep_step (s : State) : stairStep (s.i, s.j) ((step s).i, (step s).j) = true := by
  rw [step_i, step_j]
  split_ifs with h1 h2 h2
  · simp [stairStep]
  · simp [stairStep]
  · simp [stairStep]
  · exfalso; omega

theorem visited_staircase (m n : Nat) (fuel : Nat) :
    ∀ s : State, isStaircase (visited m n fuel s) = true := by
  induction fuel with
  | zero => intro s; rfl
  | succ f ih =>
    intro s
    by_cases hc : loopCond m n s = true
    · rw [visited, if_pos hc]
      cases f with
      | zero => rfl
      | succ g =>
        have h := ih (step s)
        by_cases hc2 : loopCond m n (step s) = true
        · rw [visited, if_pos hc2] at h ⊢
          simp only [isStaircase, Bool.and_eq_true]
          exact ⟨stairStep_step s, h⟩
        · rw [visited, if_neg hc2]
          rfl
    · rw [visited, if_neg hc]
      rfl

theorem visited_lower (m n : Nat) (fuel : Nat) :
    ∀ (s : State) (p : Nat × Nat), p ∈ visited m n fuel s → s.i + s.j ≤ p.1 + p.2 := by
  induction fuel with
  | zero => intro s p hp; simp [visited] at hp
  | succ f ih =>
    intro s p hp
    by_cases hc : loopCond m n s = true
    · rw [visited, if_pos hc, List.mem_cons] at hp
      rcases hp with rfl | hp
      · exact le_refl _
      · have h1 := ih (step s) p hp
        have h2 := step_advance s
        omega
    · rw [visited, if_neg hc] at hp
      simp at hp

theorem visited_pairwise (m n : Nat) (fuel : Nat) :
    ∀ s : State, List.Pairwise (fun a b : Nat × Nat => a.1 + a.2 < b.1 + b.2)
      (visited m n fuel s) := by
  induction fuel with
  | zero => intro s; exact List.Pairwise.nil
  | succ f ih =>
    intro s
    by_cases hc : loopCond m n s = true
    · rw [visited, if_pos hc]
      refine List.Pairwise.cons ?_ (ih (step s))
      intro p hp
      have h1 := visited_lower m n f (step s) p hp
      have h2 := step_advance s
      show s.i + s.j < p.1 + p.2
      omega
    · rw [visited, if_neg hc]
      exact List.Pairwise.nil

theorem visited_nodup (m n : Nat) (fuel : Nat) (s : State) : (visited m n fuel s).Nodup := by
  refine List.Pairwise.imp ?_ (visited_pairwise m n fuel s)
  intro a b hab he
  rw [he] at hab
  exact lt_irrefl _ hab

theorem loop_add (m n : Nat) (a : Nat) :
    ∀ (b : Nat) (s : State), loop m n (a + b) s = loop m n b (loop m n a s) := by
  induction a with
  | zero => intro b s; rw [Nat.zero_add]; rfl
  | succ a ih =>
    intro b s
    have e : a + 1 + b = (a + b) + 1 := by omega
    rw [e]
    by_cases hc : loopCond m n s = true
    · rw [loop, if_pos hc, ih b (step s)]
      congr 1
      rw [loop, if_pos hc]
    · have hf : loopCond m n s = false := by simpa using hc
      rw [loop_of_not_cond m n _ s hf, loop_of_not_cond m n _ s hf,
        loop_of_not_cond m n _ s hf]

theorem loop_al_kept (m n : Nat) (fuel : Nat) :
    ∀ (s : State) (r k : Nat), r + k < s.i + s.j → (loop m n fuel s).al r k = s.al r k := by
  induction fuel with
  | zero => intro s r k _; rfl
  | succ f ih =>
    intro s r k h
    by_cases hc : loopCond m n s = true
    · rw [loop, if_pos hc]
      have h2 := step_advance s
      rw [ih (step s) r k (by omega), step_al, setCell_other]
      rintro ⟨rfl, rfl⟩
      exact lt_irrefl _ h
    · rw [loop, if_neg hc]

theorem visited_get (m n : Nat) (fuel : Nat) :
    ∀ (s : State) (k : Nat), k < (visited m n fuel s).length →
      (visited m n fuel s)[k]? = some ((loop m n k s).i, (loop m n k s).j) ∧
        loopCond m n (loop m n k s) = true := by
  induction fuel with
  | zero => intro s k hk; simp [visited] at hk
  | succ f ih =>
    intro s k hk
    by_cases hc : loopCond m n s = true
    · rw [visited, if_pos hc] at hk ⊢
      cases k with
      | zero => exact ⟨by rw [List.getElem?_cons_zero]; rfl, hc⟩
      | succ k =>
        rw [List.length_cons] at hk
        have h := ih (step s) k (by omega)
        rw [loop, if_pos hc, List.getElem?_cons_succ]
        exact h
    · rw [visited, if_neg hc] at hk
      simp at hk

theorem visited_length_le (m n : Nat) (fuel : Nat) (s : State) :
    (visited m n fuel s).length ≤ (m - s.i) + (n - s.j) - 1 := by
  by_cases hc : loopCond m n s = true
  · have := visited_length m n fuel s hc
    omega
  · have hf : loopCond m n s = false := by simpa using hc
    rw [visited_of_not_cond m n fuel s hf]
    exact Nat.zero_le _

theorem nonzero_visited (m n : Nat) (s : State)
    (hz : ∀ r k, r < m → k < n → s.al r k = 0) (fuel : Nat) :
    ∀ r k, r < m → k < n → (loop m n fuel s).al r k ≠ 0 → (r, k) ∈ visited m n fuel s := by
  induction fuel with
  | zero =>
    intro r k hr hk hne
    exact absurd (hz r k hr hk) hne
  | succ f ih =>
    intro r k hr hk hne
    rw [visited_succ_back]
    rw [loop_succ_back] at hne
    by_cases hc : loopCond m n (loop m n f s) = true
    · rw [if_pos hc] at hne ⊢
      rw [step_al] at hne
      by_cases hrk : r = (loop m n f s).i ∧ k = (loop m n f s).j
      · obtain ⟨e1, e2⟩ := hrk
        rw [e1, e2]
        simp
      · rw [setCell_other _ _ _ _ _ _ hrk] at hne
        exact List.mem_append_left _ (ih r k hr hk hne)
    · rw [if_neg hc] at hne ⊢
      simpa using ih r k hr hk hne

theorem visited_head (m n : Nat) (s : State) (fuel : Nat) (hf : 0 < fuel) :
    (visited m n fuel s).head? = if loopCond m n s then some (s.i, s.j) else none := by
  obtain ⟨f, rfl⟩ := Nat.exists_eq_succ_of_ne_zero (Nat.pos_iff_ne_zero.mp hf)
  by_cases hc : loopCond m n s = true
  · rw [visited, if_pos hc, if_pos hc]; rfl
  · rw [visited, if_neg hc, if_neg hc]; rfl

theorem visited_length_fuel (m n : Nat) (fuel : Nat) :
    ∀ s : State, (visited m n fuel s).length ≤ fuel := by
  induction fuel with
  | zero => intro s; simp [visited]
  | succ f ih =>
    intro s
    by_cases hc : loopCond m n s = true
    · rw [visited, if_pos hc, List.length_cons]
      exact Nat.succ_le_succ (ih (step s))
    · rw [visited, if_neg hc]; simp

theorem visited_final_al (m n : Nat) (s : State) (fuel k : Nat)
    (hk : k < (visited m n fuel s).length) :
    (loop m n fuel s).al (loop m n k s).i (loop m n k s).j
      = min ((loop m n k s).sup (loop m n k s).i) ((loop m n k s).dem (loop m n k s).j) := by
  obtain ⟨_, hc⟩ := visited_get m n fuel s k hk
  have hlen := visited_length_fuel m n fuel s
  obtain ⟨d, hd⟩ : ∃ d, fuel = k + (d + 1) := ⟨fuel - k - 1, by omega⟩
  rw [hd, loop_add, loop, if_pos hc]
  have hadv := step_advance (loop m n k s)
  rw [loop_al_kept m n d (step (loop m n k s)) _ _ hadv, step_al, setCell_same]

/-- C14 (staircase shape).  The cells at which the loop body is executed start
at `(0, 0)` (when `m, n ≥ 1`), each next one is the southern, eastern or
south-eastern neighbour of the previous one, no cell occurs twice, the final
value of a visited cell is the amount `min(S[i], D[j])` allocated when it was
visited, every non-zero cell of the final matrix was visited, and the final
matrix has at most `m + n - 1` non-zero cells. -/
theorem staircase_shape (m n : Nat) (c : Nat → Nat → Int) (S D : Nat → Int)
    (al0 : Nat → Nat → Int) :
    (visited m n (m + n) (init m n c S D al0)).head?
      = (if 0 < m ∧ 0 < n then some (0, 0) else none) ∧
    isStaircase (visited m n (m + n) (init m n c S D al0)) = true ∧
    (visited m n (m + n) (init m n c S D al0)).Nodup ∧
    (∀ k, k < (visited m n (m + n) (init m n c S D al0)).length →
      (visited m n (m + n) (init m n c S D al0))[k]?
        = some ((loop m n k (init m n c S D al0)).i, (loop m n k (init m n c S D al0)).j) ∧
      (nwc m n c S D al0).al (loop m n k (init m n c S D al0)).i
          (loop m n k (init m n c S D al0)).j
        = min ((loop m n k (init m n c S D al0)).sup (loop m n k (init m n c S D al0)).i)
            ((loop m n k (init m n c S D al0)).dem (loop m n k (init m n c S D al0)).j)) ∧
    (∀ r k, r < m → k < n → (nwc m n c S D al0).al r k ≠ 0 →
      (r, k) ∈ visited m n (m + n) (init m n c S D al0)) ∧
    (nonzeroCells m n (nwc m n c S D al0).al).card
      ≤ (visited m n (m + n) (init m n c S D al0)).length ∧
    (nonzeroCells m n (nwc m n c S D al0).al).card ≤ m + n - 1 := by
  have hz : ∀ r k, r < m → k < n → (init m n c S D al0).al r k = 0 := by
    intro r k hr hk
    show initAl m n al0 r k = 0
    simp [initAl, hr, hk]
  have hmem : ∀ r k, r < m → k < n → (nwc m n c S D al0).al r k ≠ 0 →
      (r, k) ∈ visited m n (m + n) (init m n c S D al0) :=
    nonzero_visited m n _ hz (m + n)
  have hcard : (nonzeroCells m n (nwc m n c S D al0).al).card
      ≤ (visited m n (m + n) (init m n c S D al0)).length := by
    have hsub : nonzeroCells m n (nwc m n c S D al0).al
        ⊆ (visited m n (m + n) (init m n c S D al0)).toFinset := by
      intro p hp
      unfold nonzeroCells at hp
      rw [Finset.mem_filter, Finset.mem_product, Finset.mem_range, Finset.mem_range] at hp
      exact List.mem_toFinset.mpr (hmem p.1 p.2 hp.1.1 hp.1.2 hp.2)
    exact (Finset.card_le_card hsub).trans (List.toFinset_card_le _)
  have hlen : (visited m n (m + n) (init m n c S D al0)).length ≤ m + n - 1 := by
    have h := visited_length_le m n (m + n) (init m n c S D al0)
    have e1 : (init m n c S D al0).i = 0 := rfl
    have e2 : (init m n c S D al0).j = 0 := rfl
    rw [e1, e2] at h
    omega
  refine ⟨?_, visited_staircase m n _ _, visited_nodup m n _ _, ?_, hmem, hcard,
    hcard.trans hlen⟩
  · by_cases hmn : 0 < m ∧ 0 < n
    · rw [visited_head m n _ (m + n) (by omega), if_pos hmn,
        if_pos ((loopCond_iff m n _).mpr hmn)]
      rfl
    · have hf : loopCond m n (init m n c S D al0) = false :=
        (loopCond_false_iff m n _).mpr hmn
      rw [visited_of_not_cond m n _ _ hf, if_neg hmn]
      rfl
  · intro k hk
    exact ⟨(visited_get m n (m + n) _ k hk).1, visited_final_al m n _ (m + n) k hk⟩

/-- Witness of C14 on Scenario 2: the visited cells, and the four non-zero
cells of the final matrix, `4 = 2 + 3 - 1`. -/
theorem staircase_shape_witness :
    visited 2 3 (2 + 3) (init 2 3 (mat [[2, 3, 1], [5, 4, 8]]) (vec [6, 10]) (vec [4, 6, 6]) stale) = [(0, 0), (0, 1), (1, 1), (1, 2)] ∧
    isStaircase [(0, 0), (0, 1), (1, 1), (1, 2)] = true ∧
    (nonzeroCells 2 3 (nwc 2 3 (mat [[2, 3, 1], [5, 4, 8]]) (vec [6, 10]) (vec [4, 6, 6]) stale).al).card = 4 ∧
    (nonzeroCells 2 3 (nwc 2 3 (mat [[2, 3, 1], [5, 4, 8]]) (vec [6, 10]) (vec [4, 6, 6]) stale).al).card ≤ 2 + 3 - 1 :=
  ⟨by decide, by decide, by decide,
    (staircase_shape 2 3 (mat [[2, 3, 1], [5, 4, 8]]) (vec [6, 10]) (vec [4, 6, 6])
      stale).2.2.2.2.2.2⟩

/-! ## Bounds on the accumulator -/

theorem wrap32_id (x : Int) (h1 : -2147483648 ≤ x) (h2 : x < 2147483648) : wrap32 x = x := by
  unfold wrap32
  omega

theorem cost_bounds (m n : Nat) (c : Nat → Nat → Int) (S D : Nat → Int) (K : Int) (s : State)
    (h : Inv m n c S D s) (hp : NonNeg m n s) (ha : AlNonNeg m n s)
    (hC : ∀ i j, i < m → j < n → 0 ≤ c i j ∧ c i j ≤ K) :
    0 ≤ s.sum ∧ s.sum ≤ K * min (total m S) (total n D) := by
  have hnn : 0 ≤ costOf m n s.al c := by
    unfold costOf
    refine Finset.sum_nonneg (fun i hi => Finset.sum_nonneg (fun j hj => ?_))
    have hi2 := Finset.mem_range.mp hi
    have hj2 := Finset.mem_range.mp hj
    exact mul_nonneg (ha i j hi2 hj2) (hC i j hi2 hj2).1
  have hle : costOf m n s.al c ≤ shipped m n s.al * K := by
    unfold costOf shipped
    rw [Finset.sum_mul]
    refine Finset.sum_le_sum (fun i hi => ?_)
    rw [Finset.sum_mul]
    refine Finset.sum_le_sum (fun j hj => ?_)
    have hi2 := Finset.mem_range.mp hi
    have hj2 := Finset.mem_range.mp hj
    exact mul_le_mul_of_nonneg_left (hC i j hi2 hj2).2 (ha i j hi2 hj2)
  have hship : 0 ≤ shipped m n s.al := by
    unfold shipped
    exact Finset.sum_nonneg (fun i hi => Finset.sum_nonneg (fun j hj =>
      ha i j (Finset.mem_range.mp hi) (Finset.mem_range.mp hj)))
  obtain ⟨l1, l2⟩ := shipped_le m n c S D s h hp
  have hM : shipped m n s.al ≤ min (total m S) (total n D) := le_min l1 l2
  rw [h.cost]
  refine ⟨hnn, ?_⟩
  by_cases hmn : 0 < m ∧ 0 < n
  · have hK : 0 ≤ K := le_trans (hC 0 0 hmn.1 hmn.2).1 (hC 0 0 hmn.1 hmn.2).2
    calc costOf m n s.al c ≤ shipped m n s.al * K := hle
      _ ≤ min (total m S) (total n D) * K := mul_le_mul_of_nonneg_right hM hK
      _ = K * min (total m S) (total n D) := mul_comm _ _
  · have hs0 : shipped m n s.al = 0 := by
      unfold shipped
      rcases Nat.eq_zero_or_pos m with e | e
      · subst e; simp
      · have e2 : n = 0 := by omega
        subst e2; simp
    have hM0 : min (total m S) (total n D) = 0 := by
      rcases Nat.eq_zero_or_pos m with e | e
      · subst e
        have t0 : total 0 S = 0 := by simp [total]
        rw [t0]
        exact min_eq_left (by omega)
      · have e2 : n = 0 := by omega
        subst e2
        have t0 : total 0 D = 0 := by simp [total]
        rw [t0]
        exact min_eq_right (by omega)
    rw [hs0, zero_mul] at hle
    rw [hM0, mul_zero]
    exact hle

theorem InRange_step (m n : Nat) (s : State) (hp : NonNeg m n s) (hr : InRange m n s)
    (hi : s.i < m) (hj : s.j < n) : InRange m n (step s) := by
  have h0 : 0 ≤ min (s.sup s.i) (s.dem s.j) := le_min (hp.1 _ hi) (hp.2 _ hj)
  constructor
  · intro r hrm
    rw [step_sup]
    by_cases e : r = s.i
    · rw [e, setVec_same]
      have := hr.1 _ hi
      omega
    · rw [setVec_other _ _ _ _ e]
      exact hr.1 r hrm
  · intro k hkn
    rw [step_dem]
    by_cases e : k = s.j
    · rw [e, setVec_same]
      have := hr.2 _ hj
      omega
    · rw [setVec_other _ _ _ _ e]
      exact hr.2 k hkn

theorem step32_eq (m n : Nat) (c : Nat → Nat → Int) (S D : Nat → Int) (K : Int) (s : State)
    (h : Inv m n c S D s) (hp : NonNeg m n s) (ha : AlNonNeg m n s) (hr : InRange m n s)
    (hC : ∀ i j, i < m → j < n → 0 ≤ c i j ∧ c i j ≤ K)
    (hK : K * min (total m S) (total n D) < 2147483648)
    (hi : s.i < m) (hj : s.j < n) : step32 s = step s := by
  have hb0 := (cost_bounds m n c S D K s h hp ha hC).1
  have hb := (cost_bounds m n c S D K (step s) (Inv_step m n c S D s h hi hj)
    (NonNeg_step m n s hp) (AlNonNeg_step m n s hp ha) hC).2
  rw [step_sum] at hb
  have a0 := hp.1 _ hi
  have b0 := hp.2 _ hj
  have a1 := hr.1 _ hi
  have b1 := hr.2 _ hj
  have hcc : 0 ≤ s.c s.i s.j := by rw [h.c_eq]; exact (hC _ _ hi hj).1
  unfold step32 step
  by_cases h1 : s.sup s.i < s.dem s.j
  · rw [min_eq_left (le_of_lt h1)] at hb
    have hprod : 0 ≤ s.c s.i s.j * s.sup s.i := mul_nonneg hcc a0
    have w1 : wrap32 (s.c s.i s.j * s.sup s.i) = s.c s.i s.j * s.sup s.i :=
      wrap32_id _ (by omega) (by omega)
    have w2 : wrap32 (s.sum + s.c s.i s.j * s.sup s.i) = s.sum + s.c s.i s.j * s.sup s.i :=
      wrap32_id _ (by omega) (by omega)
    have w3 : wrap32 (s.dem s.j - s.sup s.i) = s.dem s.j - s.sup s.i :=
      wrap32_id _ (by omega) (by omega)
    rw [if_pos h1, if_pos h1, w1, w2, w3]
  · have hle : s.dem s.j ≤ s.sup s.i := not_lt.mp h1
    rw [min_eq_right hle] at hb
    have hprod : 0 ≤ s.c s.i s.j * s.dem s.j := mul_nonneg hcc b0
    have w1 : wrap32 (s.c s.i s.j * s.dem s.j) = s.c s.i s.j * s.dem s.j :=
      wrap32_id _ (by omega) (by omega)
    have w2 : wrap32 (s.sum + s.c s.i s.j * s.dem s.j) = s.sum + s.c s.i s.j * s.dem s.j :=
      wrap32_id _ (by omega) (by omega)
    have w3 : wrap32 (s.sup s.i - s.dem s.j) = s.sup s.i - s.dem s.j :=
      wrap32_id _ (by omega) (by omega)
    rw [if_neg h1, if_neg h1, w1, w2, w3]

theorem loop32_eq (m n : Nat) (c : Nat → Nat → Int) (S D : Nat → Int) (K : Int)
    (hC : ∀ i j, i < m → j < n → 0 ≤ c i j ∧ c i j ≤ K)
    (hK : K * min (total m S) (total n D) < 2147483648) (fuel : Nat) :
    ∀ s : State, Inv m n c S D s → NonNeg m n s → AlNonNeg m n s → InRange m n s →
      loop32 m n fuel s = loop m n fuel s := by
  induction fuel with
  | zero => intro s _ _ _ _; rfl
  | succ f ih =>
    intro s h hp ha hr
    by_cases hc : loopCond m n s = true
    · obtain ⟨hi, hj⟩ := (loopCond_iff m n s).mp hc
      rw [loop32, loop, if_pos hc, if_pos hc, step32_eq m n c S D K s h hp ha hr hC hK hi hj]
      exact ih (step s) (Inv_step m n c S D s h hi hj) (NonNeg_step m n s hp)
        (AlNonNeg_step m n s hp ha) (InRange_step m n s hp hr hi hj)
    · rw [loop32, loop, if_neg hc, if_neg hc]

/-- Beyond the bound of C15 the 32-bit accumulator does differ from the exact
one: with `c = [[65536]]`, `S = D = [65536]` the exact cost is `2^32` and the
32-bit accumulator holds `0`. -/
theorem nwc32_wraps_example :
    (nwc 1 1 (mat [[65536]]) (vec [65536]) (vec [65536]) stale).sum = 4294967296 ∧
    (nwc32 1 1 (mat [[65536]]) (vec [65536]) (vec [65536]) stale).sum = 0 := by
  decide

/-- C15 (cost bound, no wrap-around).  For non-negative supplies and demands
and costs between `0` and `K`, the exact accumulator lies between `0` and
`K * min(total S, total D)` after any number of iterations and at the exit.
If moreover `K * min(total S, total D) < 2^31` and the supplies and demands are
values of a 32-bit `int` (below `2^31`), the loop run with 32-bit arithmetic
goes through the same states as the exact one, so its accumulator is the exact
total cost. -/
theorem cost_bound_no_wrap (m n : Nat) (c : Nat → Nat → Int) (S D : Nat → Int)
    (al0 : Nat → Nat → Int) (K : Int)
    (hS : ∀ i, i < m → 0 ≤ S i) (hD : ∀ j, j < n → 0 ≤ D j)
    (hC : ∀ i, i < m → ∀ j, j < n → 0 ≤ c i j ∧ c i j ≤ K) :
    (∀ fuel, 0 ≤ (loop m n fuel (init m n c S D al0)).sum ∧
      (loop m n fuel (init m n c S D al0)).sum ≤ K * min (total m S) (total n D)) ∧
    (0 ≤ (nwc m n c S D al0).sum ∧
      (nwc m n c S D al0).sum ≤ K * min (total m S) (total n D)) ∧
    (K * min (total m S) (total n D) < 2147483648 →
      (∀ i, i < m → S i < 2147483648) → (∀ j, j < n → D j < 2147483648) →
      (∀ fuel, loop32 m n fuel (init m n c S D al0) = loop m n fuel (init m n c S D al0)) ∧
      nwc32 m n c S D al0 = nwc m n c S D al0 ∧
      (nwc32 m n c S D al0).sum = costOf m n (nwc m n c S D al0).al c) := by
  have hC2 : ∀ i j, i < m → j < n → 0 ≤ c i j ∧ c i j ≤ K := fun i j hi hj => hC i hi j hj
  have hI0 := Inv_init m n c S D al0
  have hP0 : NonNeg m n (init m n c S D al0) := ⟨hS, hD⟩
  have hA0 := AlNonNeg_init m n c S D al0
  have hb : ∀ fuel, 0 ≤ (loop m n fuel (init m n c S D al0)).sum ∧
      (loop m n fuel (init m n c S D al0)).sum ≤ K * min (total m S) (total n D) :=
    fun fuel => cost_bounds m n c S D K _ (Inv_loop m n c S D fuel _ hI0)
      (NonNeg_loop m n fuel _ hP0) (AlNonNeg_loop m n fuel _ hP0 hA0) hC2
  refine ⟨hb, hb (m + n), ?_⟩
  intro hK hS2 hD2
  have hR0 : InRange m n (init m n c S D al0) := ⟨hS2, hD2⟩
  have he : ∀ fuel, loop32 m n fuel (init m n c S D al0)
      = loop m n fuel (init m n c S D al0) :=
    fun fuel => loop32_eq m n c S D K hC2 hK fuel _ hI0 hP0 hA0 hR0
  refine ⟨he, he (m + n), ?_⟩
  have e : nwc32 m n c S D al0 = nwc m n c S D al0 := he (m + n)
  rw [e]
  exact (nwc_Inv m n c S D al0).cost

/-- Witness of C15 on Scenario 2 with `K = 8`: the bound is `8 * 16 = 128`, and
both the exact and the 32-bit accumulator end at `78`. -/
theorem cost_bound_no_wrap_witness :
    ((∀ i, i < 2 → 0 ≤ vec [6, 10] i) ∧ (∀ j, j < 3 → 0 ≤ vec [4, 6, 6] j) ∧
      (∀ i, i < 2 → ∀ j, j < 3 →
        0 ≤ mat [[2, 3, 1], [5, 4, 8]] i j ∧ mat [[2, 3, 1], [5, 4, 8]] i j ≤ 8) ∧
      8 * min (total 2 (vec [6, 10])) (total 3 (vec [4, 6, 6])) < 2147483648 ∧
      (∀ i, i < 2 → vec [6, 10] i < 2147483648) ∧
      (∀ j, j < 3 → vec [4, 6, 6] j < 2147483648)) ∧
    (nwc 2 3 (mat [[2, 3, 1], [5, 4, 8]]) (vec [6, 10]) (vec [4, 6, 6]) stale).sum = 78 ∧
    (nwc 2 3 (mat [[2, 3, 1], [5, 4, 8]]) (vec [6, 10]) (vec [4, 6, 6]) stale).sum ≤ 8 * min (total 2 (vec [6, 10])) (total 3 (vec [4, 6, 6])) ∧
    8 * min (total 2 (vec [6, 10])) (total 3 (vec [4, 6, 6])) = 128 ∧
    (nwc32 2 3 (mat [[2, 3, 1], [5, 4, 8]]) (vec [6, 10]) (vec [4, 6, 6]) stale).sum = (nwc 2 3 (mat [[2, 3, 1], [5, 4, 8]]) (vec [6, 10]) (vec [4, 6, 6]) stale).sum :=
  ⟨⟨by decide, by decide, by decide, by decide, by decide, by decide⟩,
    by decide,
    (cost_bound_no_wrap 2 3 (mat [[2, 3, 1], [5, 4, 8]]) (vec [6, 10]) (vec [4, 6, 6]) stale 8
      (by decide) (by decide) (by decide)).2.1.2,
    by decide,
    congrArg State.sum
      ((cost_bound_no_wrap 2 3 (mat [[2, 3, 1], [5, 4, 8]]) (vec [6, 10]) (vec [4, 6, 6])
        stale 8 (by decide) (by decide) (by decide)).2.2
        (by decide) (by decide) (by decide)).2.1⟩

/-! ## The loop with 32-bit arithmetic -/

theorem wrap32_zero : wrap32 0 = 0 := by
  decide

theorem wrap32_add_wrap32 (a b : Int) : wrap32 (a + wrap32 b) = wrap32 (a + b) := by
  unfold wrap32
  omega

theorem wrap32_wrap32_add (a b : Int) : wrap32 (wrap32 a + b) = wrap32 (a + b) := by
  unfold wrap32
  omega

theorem wrap32_eq_self_iff (x : Int) :
    wrap32 x = x ↔ -2147483648 ≤ x ∧ x < 2147483648 := by
  unfold wrap32
  omega

theorem step32_c (s : State) : (step32 s).c = s.c := by
  unfold step32; split_ifs <;> rfl

theorem step32_al (s : State) : (step32 s).al = (step s).al := by
  unfold step32 step; split_ifs <;> rfl

theorem step32_i (s : State) : (step32 s).i = (step s).i := by
  unfold step32 step; split_ifs <;> rfl

theorem step32_j (s : State) : (step32 s).j = (step s).j := by
  unfold step32 step; split_ifs <;> rfl

theorem step32_sum (s : State) :
    (step32 s).sum = wrap32 (s.sum + s.c s.i s.j * min (s.sup s.i) (s.dem s.j)) := by
  unfold step32
  split_ifs with h1 h2
  · simp [min_eq_left (le_of_lt h1), wrap32_add_wrap32]
  · simp [min_eq_right (le_of_lt h2), wrap32_add_wrap32]
  · simp [min_eq_right (not_lt.mp h1), wrap32_add_wrap32]

theorem step32_sup (s : State) :
    (step32 s).sup = setVec s.sup s.i (wrap32 (s.sup s.i - min (s.sup s.i) (s.dem s.j))) := by
  unfold step32
  split_ifs with h1 h2
  · simp [min_eq_left (le_of_lt h1), wrap32_zero]
  · simp [min_eq_right (le_of_lt h2)]
  · have h : s.sup s.i = s.dem s.j := le_antisymm (not_lt.mp h2) (not_lt.mp h1)
    simp [h, wrap32_zero]

theorem step32_dem (s : State) :
    (step32 s).dem = setVec s.dem s.j (wrap32 (s.dem s.j - min (s.sup s.i) (s.dem s.j))) := by
  unfold step32
  split_ifs with h1 h2
  · simp [min_eq_left (le_of_lt h1)]
  · simp [min_eq_right (le_of_lt h2), wrap32_zero]
  · simp [min_eq_right (not_lt.mp h1), wrap32_zero]

theorem Inv32_init (m n : Nat) (c : Nat → Nat → Int) (S D : Nat → Int) (al0 : Nat → Nat → Int) :
    Inv32 m n c (init m n c S D al0) := by
  have h := Inv_init m n c S D al0
  refine ⟨rfl, h.zero, ?_⟩
  rw [← h.cost]
  exact wrap32_zero.symm

theorem Inv32_step (m n : Nat) (c : Nat → Nat → Int) (s : State)
    (h : Inv32 m n c s) (hi : s.i < m) (hj : s.j < n) : Inv32 m n c (step32 s) := by
  have h0 : s.al s.i s.j = 0 := h.zero s.i s.j hi hj (Or.inr (Or.inr ⟨rfl, rfl⟩))
  have hadv := step_advance s
  have hi1 := step_i_mono s
  have hj1 := step_j_mono s
  refine ⟨?_, ?_, ?_⟩
  · rw [step32_c]; exact h.c_eq
  · intro r k hr hk hrk
    rw [step32_i, step32_j] at hrk
    have hne : ¬ (r = s.i ∧ k = s.j) := by
      rintro ⟨rfl, rfl⟩
      omega
    rw [step32_al, step_al, setCell_other _ _ _ _ _ _ hne]
    apply h.zero r k hr hk
    omega
  · rw [step32_sum, step32_al, step_al, costOf_setCell _ _ _ _ _ _ _ hi hj, h0, h.cost,
      h.c_eq, wrap32_wrap32_add]
    congr 1
    ring

theorem Inv32_loop (m n : Nat) (c : Nat → Nat → Int) (fuel : Nat) :
    ∀ s : State, Inv32 m n c s → Inv32 m n c (loop32 m n fuel s) := by
  induction fuel with
  | zero => intro s h; exact h
  | succ k ih =>
    intro s h
    unfold loop32
    split_ifs with hc
    · obtain ⟨hi, hj⟩ := (loopCond_iff m n s).mp hc
      exact ih _ (Inv32_step m n c s h hi hj)
    · exact h

theorem nwc32_Inv32 (m n : Nat) (c : Nat → Nat → Int) (S D : Nat → Int)
    (al0 : Nat → Nat → Int) : Inv32 m n c (nwc32 m n c S D al0) :=
  Inv32_loop m n c (m + n) _ (Inv32_init m n c S D al0)

theorem SameButSum_refl (s : State) : SameButSum s s :=
  ⟨rfl, rfl, rfl, rfl, rfl, rfl⟩

theorem step32_agree (s t : State) (h : SameButSum s t) (hw : SubInRange t) :
    SameButSum (step32 s) (step t) := by
  obtain ⟨hc, hs, hd, ha, hi, hj⟩ := h
  obtain ⟨w1, w2⟩ := hw
  have e1 : min (s.sup s.i) (s.dem s.j) = min (t.sup t.i) (t.dem t.j) := by
    rw [hs, hd, hi, hj]
  refine ⟨?_, ?_, ?_, ?_, ?_, ?_⟩
  · rw [step32_c, step_c, hc]
  · rw [step32_sup, step_sup, hs, hd, hi, hj]
    rcases le_total (t.sup t.i) (t.dem t.j) with hle | hle
    · rw [min_eq_left hle, sub_self, wrap32_zero]
    · rw [min_eq_right hle, w2]
  · rw [step32_dem, step_dem, hs, hd, hi, hj]
    rcases le_total (t.sup t.i) (t.dem t.j) with hle | hle
    · rw [min_eq_left hle, w1]
    · rw [min_eq_right hle, sub_self, wrap32_zero]
  · rw [step32_al, step_al, step_al, ha, e1, hi, hj]
  · rw [step32_i, step_i, step_i, hs, hd, hi, hj]
  · rw [step32_j, step_j, step_j, hs, hd, hi, hj]

theorem loopCond_agree (m n : Nat) (s t : State) (h : SameButSum s t) :
    loopCond m n s = loopCond m n t := by
  unfold loopCond
  rw [h.2.2.2.2.1, h.2.2.2.2.2]

theorem loop32_agree (m n : Nat) (P : State → Prop)
    (hstep : ∀ t, P t → loopCond m n t = true → P (step t))
    (hsub : ∀ t, P t → loopCond m n t = true → SubInRange t) (fuel : Nat) :
    ∀ s t : State, SameButSum s t → P t →
      SameButSum (loop32 m n fuel s) (loop m n fuel t) ∧
        visited32 m n fuel s = visited m n fuel t := by
  induction fuel with
  | zero => intro s t h _; exact ⟨h, rfl⟩
  | succ f ih =>
    intro s t h hP
    have hc := loopCond_agree m n s t h
    by_cases ht : loopCond m n t = true
    · have hs : loopCond m n s = true := hc.trans ht
      rw [loop32, loop, visited32, visited, if_pos hs, if_pos ht, if_pos hs, if_pos ht]
      obtain ⟨g1, g2⟩ := ih (step32 s) (step t) (step32_agree s t h (hsub t hP ht))
        (hstep t hP ht)
      refine ⟨g1, ?_⟩
      rw [g2, h.2.2.2.2.1, h.2.2.2.2.2]
    · have hs : ¬ loopCond m n s = true := by rw [hc]; exact ht
      rw [loop32, loop, visited32, visited, if_neg hs, if_neg ht, if_neg hs, if_neg ht]
      exact ⟨h, rfl⟩

theorem nonneg_SubInRange (m n : Nat) (t : State) (hp : NonNeg m n t) (hr : InRange m n t)
    (hc : loopCond m n t = true) : SubInRange t := by
  obtain ⟨hi, hj⟩ := (loopCond_iff m n t).mp hc
  have a0 := hp.1 _ hi
  have b0 := hp.2 _ hj
  have a1 := hr.1 _ hi
  have b1 := hr.2 _ hj
  exact ⟨wrap32_id _ (by omega) (by omega), wrap32_id _ (by omega) (by omega)⟩

/-- On non-negative supplies and demands that are values of a 32-bit `int`, the
32-bit loop and the exact loop agree, after any number of iterations, on the
cost matrix, the residuals, the allocation matrix and the cursors, and they
execute the body at the same cells. -/
theorem nwc32_agree (m n : Nat) (c : Nat → Nat → Int) (S D : Nat → Int)
    (al0 : Nat → Nat → Int)
    (hS : ∀ i, i < m → 0 ≤ S i) (hD : ∀ j, j < n → 0 ≤ D j)
    (hS2 : ∀ i, i < m → S i < 2147483648) (hD2 : ∀ j, j < n → D j < 2147483648)
    (fuel : Nat) :
    SameButSum (loop32 m n fuel (init m n c S D al0)) (loop m n fuel (init m n c S D al0)) ∧
      visited32 m n fuel (init m n c S D al0) = visited m n fuel (init m n c S D al0) := by
  refine loop32_agree m n (fun t => NonNeg m n t ∧ InRange m n t) ?_ ?_ fuel _ _
    (SameButSum_refl _) ⟨⟨hS, hD⟩, ⟨hS2, hD2⟩⟩
  · intro t ht hc
    obtain ⟨hi, hj⟩ := (loopCond_iff m n t).mp hc
    exact ⟨NonNeg_step m n t ht.1, InRange_step m n t ht.1 ht.2 hi hj⟩
  · intro t ht hc
    exact nonneg_SubInRange m n t ht.1 ht.2 hc

theorem diag_agree (n : Nat) (c : Nat → Nat → Int) (S D : Nat → Int) (al0 : Nat → Nat → Int)
    (h : ∀ k, k < n → S k = D k) (fuel : Nat) :
    SameButSum (loop32 n n fuel (init n n c S D al0)) (loop n n fuel (init n n c S D al0)) ∧
      visited32 n n fuel (init n n c S D al0) = visited n n fuel (init n n c S D al0) := by
  refine loop32_agree n n (fun t => ∃ k, DiagInv n c S D k t) ?_ ?_ fuel _ _
    (SameButSum_refl _) ⟨0, diag_loop n c S D al0 h 0 (Nat.zero_le n)⟩
  · rintro t ⟨k, hk⟩ hc
    obtain ⟨hi, _⟩ := (loopCond_iff n n t).mp hc
    rw [hk.2.1] at hi
    exact ⟨k + 1, diag_step n c S D k t hk (h k hi)⟩
  · rintro t ⟨k, hk⟩ hc
    obtain ⟨hi, _⟩ := (loopCond_iff n n t).mp hc
    obtain ⟨_, ei, ej, hs, hd, _, _⟩ := hk
    rw [ei] at hi
    have e : t.sup t.i = t.dem t.j := by
      rw [ei, ej, hs k (le_refl k), hd k (le_refl k)]
      exact h k hi
    unfold SubInRange
    rw [e, sub_self]
    exact ⟨wrap32_zero, wrap32_zero⟩

/-! ## Claims on the accumulator -/

/-- Counterexample to C3 as stated: with `C = [[40000,0],[0,40000]]` and
`S = D = [40000, 40000]` each product `1600000000` is an `int`, but the cost
`3200000000` is not, and the 32-bit accumulator ends at `-1094967296`. -/
theorem total_cost_counterexample :
    (nwc32 2 2 (mat [[40000, 0], [0, 40000]]) (vec [40000, 40000]) (vec [40000, 40000]) stale).sum = -1094967296 ∧
    ∑ i in Finset.range 2, ∑ j in Finset.range 2,
      (nwc32 2 2 (mat [[40000, 0], [0, 40000]]) (vec [40000, 40000]) (vec [40000, 40000]) stale).al i j * mat [[40000, 0], [0, 40000]] i j = 3200000000 ∧
    (nwc32 2 2 (mat [[40000, 0], [0, 40000]]) (vec [40000, 40000]) (vec [40000, 40000]) stale).sum ≠
      ∑ i in Finset.range 2, ∑ j in Finset.range 2,
        (nwc32 2 2 (mat [[40000, 0], [0, 40000]]) (vec [40000, 40000]) (vec [40000, 40000]) stale).al i j * mat [[40000, 0], [0, 40000]] i j := by
  decide

/-- C3 (total cost), amended.  For every input, the 32-bit accumulator `sum`
after the loop is the sum over all cells of the `m × n` block of
`al[i][j] * c[i][j]`, recomputed from the final allocation matrix and the cost
matrix, reduced modulo `2^32` to the range of `int`; it is that sum itself
exactly when the sum lies between `-2^31` and `2^31 - 1`. -/
theorem total_cost_int32 (m n : Nat) (c : Nat → Nat → Int) (S D : Nat → Int)
    (al0 : Nat → Nat → Int) :
    (nwc32 m n c S D al0).sum
      = wrap32 (∑ i in Finset.range m, ∑ j in Finset.range n,
          (nwc32 m n c S D al0).al i j * c i j) ∧
    (nwc32 m n c S D al0).sum
      = wrap32 (costOf m n (nwc32 m n c S D al0).al (nwc32 m n c S D al0).c) ∧
    ((nwc32 m n c S D al0).sum
        = ∑ i in Finset.range m, ∑ j in Finset.range n, (nwc32 m n c S D al0).al i j * c i j ↔
      -2147483648 ≤ ∑ i in Finset.range m, ∑ j in Finset.range n,
          (nwc32 m n c S D al0).al i j * c i j ∧
        ∑ i in Finset.range m, ∑ j in Finset.range n,
          (nwc32 m n c S D al0).al i j * c i j < 2147483648) := by
  have hI := nwc32_Inv32 m n c S D al0
  have h1 : (nwc32 m n c S D al0).sum = wrap32 (costOf m n (nwc32 m n c S D al0).al c) :=
    hI.cost
  refine ⟨h1, ?_, ?_⟩
  · rw [hI.c_eq]; exact h1
  · show (nwc32 m n c S D al0).sum = costOf m n (nwc32 m n c S D al0).al c ↔ _
    rw [h1]
    exact wrap32_eq_self_iff _

/-- Witness of C3 on Scenario 2: the cost `78` is an `int`, and the 32-bit
accumulator holds it. -/
theorem total_cost_int32_witness :
    costOf 2 3 (nwc32 2 3 (mat [[2, 3, 1], [5, 4, 8]]) (vec [6, 10]) (vec [4, 6, 6]) stale).al (mat [[2, 3, 1], [5, 4, 8]]) = 78 ∧
    (nwc32 2 3 (mat [[2, 3, 1], [5, 4, 8]]) (vec [6, 10]) (vec [4, 6, 6]) stale).sum = 78 :=
  ⟨by decide,
    ((total_cost_int32 2 3 (mat [[2, 3, 1], [5, 4, 8]]) (vec [6, 10]) (vec [4, 6, 6])
      stale).1).trans (by decide)⟩

/-- Counterexample to C6 as stated: on the diagonal problem `n = 1`,
`C = [[50000]]`, `S = D = [50000]` the sum of `S[k] * c[k][k]` is `2500000000`
and the 32-bit accumulator ends at `-1794967296`. -/
theorem diagonal_case_counterexample :
    (∀ k, k < 1 → vec [50000] k = vec [50000] k) ∧
    (nwc32 1 1 (mat [[50000]]) (vec [50000]) (vec [50000]) stale).sum = -1794967296 ∧
    (nwc32 1 1 (mat [[50000]]) (vec [50000]) (vec [50000]) stale).sum ≠ ∑ k in Finset.range 1, vec [50000] k * mat [[50000]] k k := by
  decide

/-- C6 (diagonal case), amended.  On a square problem with `S[k] = D[k]` for
every `k`, the `k`-th execution of the 32-bit loop body happens at cell
`(k, k)` with equal residual supply and demand (the tie branch), the visited
cells are the diagonal, the final matrix has `S[k]` on the diagonal and `0`
elsewhere, and the 32-bit accumulator is the sum of `S[k] * c[k][k]` reduced
modulo `2^32` to the range of `int`: that sum itself when it lies between
`-2^31` and `2^31 - 1`. -/
theorem diagonal_case_int32 (n : Nat) (c : Nat → Nat → Int) (S D : Nat → Int)
    (al0 : Nat → Nat → Int) (h : ∀ k, k < n → S k = D k) :
    (∀ k, k < n →
      (loop32 n n k (init n n c S D al0)).i = k ∧ (loop32 n n k (init n n c S D al0)).j = k ∧
      (loop32 n n k (init n n c S D al0)).sup k = (loop32 n n k (init n n c S D al0)).dem k) ∧
    visited32 n n (n + n) (init n n c S D al0) = (List.range n).map (fun x => (x, x)) ∧
    (∀ i j, i < n → j < n → (nwc32 n n c S D al0).al i j = if i = j then S i else 0) ∧
    (nwc32 n n c S D al0).sum = wrap32 (∑ k in Finset.range n, S k * c k k) ∧
    (-2147483648 ≤ ∑ k in Finset.range n, S k * c k k →
      ∑ k in Finset.range n, S k * c k k < 2147483648 →
      (nwc32 n n c S D al0).sum = ∑ k in Finset.range n, S k * c k k) := by
  obtain ⟨hcond, hfin⟩ := diag_final n c S D al0 h
  have hD := diag_loop n c S D al0 h n (le_refl n)
  have hag := diag_agree n c S D al0 h
  have hal : (nwc32 n n c S D al0).al = (nwc n n c S D al0).al := (hag (n + n)).1.2.2.2.1
  have hsum : (nwc32 n n c S D al0).sum = wrap32 (∑ k in Finset.range n, S k * c k k) := by
    rw [(nwc32_Inv32 n n c S D al0).cost, hal, ← (nwc_Inv n n c S D al0).cost, hfin]
    exact congrArg wrap32 hD.2.2.2.2.2.2
  refine ⟨?_, ?_, ?_, hsum, ?_⟩
  · intro k hk
    obtain ⟨_, es, ed, _, ei, ej⟩ := (hag k).1
    obtain ⟨_, hi, hj, hs, hd, _, _⟩ := diag_loop n c S D al0 h k (le_of_lt hk)
    refine ⟨ei.trans hi, ej.trans hj, ?_⟩
    rw [es, ed, hs k (le_refl k), hd k (le_refl k)]
    exact h k hk
  · rw [(hag (n + n)).2, visited_stable n n n _ hcond n]
    exact diag_visited n c S D al0 h n (le_refl n)
  · intro i j hi hj
    rw [hal, hfin, hD.2.2.2.2.2.1 i j hi hj]
    by_cases hij : i = j
    · simp [hij, hj]
    · simp [hij]
  · intro h1 h2
    rw [hsum]
    exact wrap32_id _ h1 h2

/-- Witness of C6: Scenario 1, `C = [[1,2],[3,4]]`, `S = D = [5,5]`, gives
`A = [[5,0],[0,5]]` and total cost `25`. -/
theorem diagonal_case_int32_witness :
    (∀ k, k < 2 → vec [5, 5] k = vec [5, 5] k) ∧
    (nwc32 2 2 (mat [[1, 2], [3, 4]]) (vec [5, 5]) (vec [5, 5]) stale).al 0 0 = 5 ∧ (nwc32 2 2 (mat [[1, 2], [3, 4]]) (vec [5, 5]) (vec [5, 5]) stale).al 0 1 = 0 ∧
    (nwc32 2 2 (mat [[1, 2], [3, 4]]) (vec [5, 5]) (vec [5, 5]) stale).al 1 0 = 0 ∧ (nwc32 2 2 (mat [[1, 2], [3, 4]]) (vec [5, 5]) (vec [5, 5]) stale).al 1 1 = 5 ∧
    (nwc32 2 2 (mat [[1, 2], [3, 4]]) (vec [5, 5]) (vec [5, 5]) stale).sum = 25 ∧
    visited32 2 2 (2 + 2) (init 2 2 (mat [[1, 2], [3, 4]]) (vec [5, 5]) (vec [5, 5]) stale) = [(0, 0), (1, 1)] := by
  obtain ⟨_, hv, hal, _, hsum⟩ :=
    diagonal_case_int32 2 (mat [[1, 2], [3, 4]]) (vec [5, 5]) (vec [5, 5]) stale
      (fun _ _ => rfl)
  refine ⟨fun _ _ => rfl, ?_, ?_, ?_, ?_, ?_, ?_⟩
  · rw [hal 0 0 (by decide) (by decide)]; decide
  · rw [hal 0 1 (by decide) (by decide)]; decide
  · rw [hal 1 0 (by decide) (by decide)]; decide
  · rw [hal 1 1 (by decide) (by decide)]; decide
  · rw [hsum (by decide) (by decide)]; decide
  · rw [hv]; decide

/-- Counterexample to C8 as stated.  In the initial state of `C = [[50000]]`,
`S = D = [50000]` the body does not add `min(S[i], D[j]) * c[i][j]` to the
accumulator: the 32-bit result is `-1794967296`, not `2500000000`.  In the
initial state of `S = [-2147483648]`, `D = [1]` it does not lower `D[j]` by
`min(S[i], D[j])`: the 32-bit result is `-2147483647`, not `2147483649`. -/
theorem single_step_rule_counterexample :
    (loopCond 1 1 (init 1 1 (mat [[50000]]) (vec [50000]) (vec [50000]) stale) = true ∧
      (step32 (init 1 1 (mat [[50000]]) (vec [50000]) (vec [50000]) stale)).sum = -1794967296 ∧
      (step32 (init 1 1 (mat [[50000]]) (vec [50000]) (vec [50000]) stale)).sum ≠
        (init 1 1 (mat [[50000]]) (vec [50000]) (vec [50000]) stale).sum
          + min ((init 1 1 (mat [[50000]]) (vec [50000]) (vec [50000]) stale).sup 0) ((init 1 1 (mat [[50000]]) (vec [50000]) (vec [50000]) stale).dem 0) * (init 1 1 (mat [[50000]]) (vec [50000]) (vec [50000]) stale).c 0 0) ∧
    (loopCond 1 1 (init 1 1 (mat [[1]]) (vec [-2147483648]) (vec [1]) stale) = true ∧
      (step32 (init 1 1 (mat [[1]]) (vec [-2147483648]) (vec [1]) stale)).dem 0 = -2147483647 ∧
      (step32 (init 1 1 (mat [[1]]) (vec [-2147483648]) (vec [1]) stale)).dem 0 ≠
        (init 1 1 (mat [[1]]) (vec [-2147483648]) (vec [1]) stale).dem 0 - min ((init 1 1 (mat [[1]]) (vec [-2147483648]) (vec [1]) stale).sup 0) ((init 1 1 (mat [[1]]) (vec [-2147483648]) (vec [1]) stale).dem 0)) := by
  decide

/-- C8 (single-step rule), amended.  One execution of the 32-bit loop body in
state `s` writes `min(S[i], D[j])` to `A[i][j]`, adds that amount times
`c[i][j]` to the total modulo `2^32` (exactly, when the new total is an
`int`), lowers `S[i]` and `D[j]` by that amount modulo `2^32` (exactly, when
both are non-negative `int` values), leaves one of them `0`, advances `i`
exactly when `S[i] ≤ D[j]` and `j` exactly when `D[j] ≤ S[i]` (both on a tie),
and changes no other cell of `A`, no other entry of `S` or `D`, and nothing of
`c`.  When the loop condition holds, one iteration of the loop is one such
execution. -/
theorem single_step_rule_int32 (s : State) :
    (step32 s).al s.i s.j = min (s.sup s.i) (s.dem s.j) ∧
    (step32 s).sum = wrap32 (s.sum + min (s.sup s.i) (s.dem s.j) * s.c s.i s.j) ∧
    (-2147483648 ≤ s.sum + min (s.sup s.i) (s.dem s.j) * s.c s.i s.j →
      s.sum + min (s.sup s.i) (s.dem s.j) * s.c s.i s.j < 2147483648 →
      (step32 s).sum = s.sum + min (s.sup s.i) (s.dem s.j) * s.c s.i s.j) ∧
    (step32 s).sup s.i = wrap32 (s.sup s.i - min (s.sup s.i) (s.dem s.j)) ∧
    (step32 s).dem s.j = wrap32 (s.dem s.j - min (s.sup s.i) (s.dem s.j)) ∧
    (0 ≤ s.sup s.i → s.sup s.i < 2147483648 → 0 ≤ s.dem s.j → s.dem s.j < 2147483648 →
      (step32 s).sup s.i = s.sup s.i - min (s.sup s.i) (s.dem s.j) ∧
      (step32 s).dem s.j = s.dem s.j - min (s.sup s.i) (s.dem s.j)) ∧
    ((step32 s).sup s.i = 0 ∨ (step32 s).dem s.j = 0) ∧
    (step32 s).i = (if s.sup s.i ≤ s.dem s.j then s.i + 1 else s.i) ∧
    (step32 s).j = (if s.dem s.j ≤ s.sup s.i then s.j + 1 else s.j) ∧
    (s.sup s.i = s.dem s.j → (step32 s).i = s.i + 1 ∧ (step32 s).j = s.j + 1) ∧
    (∀ r k, ¬ (r = s.i ∧ k = s.j) → (step32 s).al r k = s.al r k) ∧
    (∀ r, r ≠ s.i → (step32 s).sup r = s.sup r) ∧
    (∀ k, k ≠ s.j → (step32 s).dem k = s.dem k) ∧
    (step32 s).c = s.c ∧
    (∀ m n fuel, loopCond m n s = true →
      loop32 m n (fuel + 1) s = loop32 m n fuel (step32 s)) := by
  have hsum : (step32 s).sum
      = wrap32 (s.sum + min (s.sup s.i) (s.dem s.j) * s.c s.i s.j) := by
    rw [step32_sum, mul_comm]
  have hsup : (step32 s).sup s.i = wrap32 (s.sup s.i - min (s.sup s.i) (s.dem s.j)) := by
    rw [step32_sup, setVec_same]
  have hdem : (step32 s).dem s.j = wrap32 (s.dem s.j - min (s.sup s.i) (s.dem s.j)) := by
    rw [step32_dem, setVec_same]
  refine ⟨?_, hsum, ?_, hsup, hdem, ?_, ?_, ?_, ?_, ?_, ?_, ?_, ?_, step32_c s, ?_⟩
  · rw [step32_al, step_al, setCell_same]
  · intro h1 h2
    rw [hsum]
    exact wrap32_id _ h1 h2
  · intro a0 a1 b0 b1
    rw [hsup, hdem]
    have hm1 := min_le_left (s.sup s.i) (s.dem s.j)
    have hm2 := min_le_right (s.sup s.i) (s.dem s.j)
    have hm0 : 0 ≤ min (s.sup s.i) (s.dem s.j) := le_min a0 b0
    exact ⟨wrap32_id _ (by omega) (by omega), wrap32_id _ (by omega) (by omega)⟩
  · rw [hsup, hdem]
    rcases le_total (s.sup s.i) (s.dem s.j) with hle | hle
    · left; rw [min_eq_left hle, sub_self]; exact wrap32_zero
    · right; rw [min_eq_right hle, sub_self]; exact wrap32_zero
  · rw [step32_i, step_i]
  · rw [step32_j, step_j]
  · intro he
    rw [step32_i, step32_j, step_i, step_j, he]
    simp
  · intro r k hrk
    rw [step32_al, step_al, setCell_other _ _ _ _ _ _ hrk]
  · intro r hr
    rw [step32_sup, setVec_other _ _ _ _ hr]
  · intro k hk
    rw [step32_dem, setVec_other _ _ _ _ hk]
  · intro m n fuel hc
    rw [loop32, if_pos hc]

/-- Witness of C8 on the first iteration of Scenario 2 (`S[0] = 6 > D[0] = 4`,
`c[0][0] = 2`): the cell receives `4`, the total becomes `8`, the residuals
become `2` and `0`, and only `j` advances. -/
theorem single_step_rule_int32_witness :
    (step32 (init 2 3 (mat [[2, 3, 1], [5, 4, 8]]) (vec [6, 10]) (vec [4, 6, 6]) stale)).al 0 0 = 4 ∧
    (step32 (init 2 3 (mat [[2, 3, 1], [5, 4, 8]]) (vec [6, 10]) (vec [4, 6, 6]) stale)).sum = 8 ∧
    (step32 (init 2 3 (mat [[2, 3, 1], [5, 4, 8]]) (vec [6, 10]) (vec [4, 6, 6]) stale)).sup 0 = 2 ∧
    (step32 (init 2 3 (mat [[2, 3, 1], [5, 4, 8]]) (vec [6, 10]) (vec [4, 6, 6]) stale)).dem 0 = 0 ∧
    (step32 (init 2 3 (mat [[2, 3, 1], [5, 4, 8]]) (vec [6, 10]) (vec [4, 6, 6]) stale)).i = 0 ∧
    (step32 (init 2 3 (mat [[2, 3, 1], [5, 4, 8]]) (vec [6, 10]) (vec [4, 6, 6]) stale)).j = 1 :=
  ⟨((single_step_rule_int32 (init 2 3 (mat [[2, 3, 1], [5, 4, 8]]) (vec [6, 10]) (vec [4, 6, 6]) stale)).1).trans (by decide),
    ((single_step_rule_int32 (init 2 3 (mat [[2, 3, 1], [5, 4, 8]]) (vec [6, 10]) (vec [4, 6, 6]) stale)).2.2.1 (by decide) (by decide)).trans (by decide),
    by decide, by decide, by decide, by decide⟩

end NWC
